import Mathlib

/-!
Verification of the freddie toolkit (field-projection / serialization engine,
field-selection parser, query shaper, SQL viewset actions) against its
natural-language specification.

The Python source is shallowly embedded: Python runtime values are the
inductive type Value (JSON-like data: None, bool, int, str, list, dict);
Python dicts are insertion-ordered association lists (dinsert), Python sets
are lists with set-semantics insertion (sinsert).  All definitions are
translated directly from the source files named in their doc comments.
-/

set_option maxRecDepth 4000

namespace Freddie

/-- Python runtime values as used by the serializer: None, bool, int, str,
list, dict.  (Callables / awaitables / async iterables are already resolved
to plain data in this embedding; the resolution chain in Schema._getattr is
the identity on such data.) -/
inductive Value where
  | pynone : Value
  | pybool : Bool → Value
  | pyint : Int → Value
  | pystr : String → Value
  | pylist : List Value → Value
  | pydict : List (String × Value) → Value
deriving Repr

mutual

/-- Structural equality on embedded Python values. -/
def Value.beq : Value → Value → Bool
  | .pynone, .pynone => true
  | .pybool a, .pybool b => a == b
  | .pyint a, .pyint b => a == b
  | .pystr a, .pystr b => a == b
  | .pylist xs, .pylist ys => Value.beqList xs ys
  | .pydict xs, .pydict ys => Value.beqDict xs ys
  | _, _ => false

def Value.beqList : List Value → List Value → Bool
  | [], [] => true
  | x :: xs, y :: ys => Value.beq x y && Value.beqList xs ys
  | _, _ => false

def Value.beqDict : List (String × Value) → List (String × Value) → Bool
  | [], [] => true
  | (k1, v1) :: xs, (k2, v2) :: ys =>
      k1 == k2 && Value.beq v1 v2 && Value.beqDict xs ys
  | _, _ => false

end

/-- Python truthiness on embedded values: None, False, 0, empty string,
empty list and empty dict are falsy. -/
def pyFalsy : Value → Bool
  | .pynone => true
  | .pybool b => !b
  | .pyint n => n == 0
  | .pystr s => s == ""
  | .pylist xs => xs.isEmpty
  | .pydict xs => xs.isEmpty

/-- Python `a or b` on embedded values. -/
def pyOr (a b : Value) : Value := if pyFalsy a then b else a

/-- Association-list lookup (first binding wins), modelling dict lookup. -/
def alookup {α : Type} (k : String) : List (String × α) → Option α
  | [] => none
  | (k', v) :: rest => if k = k' then some v else alookup k rest

/-- Insertion-ordered dict insertion: an existing key keeps its position and
gets the new value, a new key is appended — Python dict assignment. -/
def dinsert {α : Type} (k : String) (v : α) : List (String × α) → List (String × α)
  | [] => [(k, v)]
  | (k', v') :: rest =>
      if k = k' then (k, v) :: rest else (k', v') :: dinsert k v rest

/-- Python dict merge d1 | d2 ({**d1, **d2}): every binding of d2 is
assigned into d1 in order. -/
def dmerge {α : Type} (d1 d2 : List (String × α)) : List (String × α) :=
  d2.foldl (fun acc (p : String × α) => dinsert p.1 p.2 acc) d1

/-- Python set.add on a list with set semantics: no duplicate is added. -/
def sinsert {α : Type} [DecidableEq α] (x : α) (s : List α) : List α :=
  if x ∈ s then s else s ++ [x]

theorem alookup_mem {α : Type} {k : String} {v : α} :
    ∀ {l : List (String × α)}, alookup k l = some v → (k, v) ∈ l := by
  intro l
  induction l with
  | nil => intro h; simp [alookup] at h
  | cons p rest ih =>
      intro h
      by_cases hk : k = p.1
      · simp [alookup, hk] at h
        simp [hk, ← h]
      · simp [alookup, hk] at h
        · exact List.mem_cons_of_mem _ (ih h)

theorem alookup_dinsert_self {α : Type} (k : String) (v : α) :
    ∀ (l : List (String × α)), alookup k (dinsert k v l) = some v := by
  intro l
  induction l with
  | nil => simp [dinsert, alookup]
  | cons p rest ih =>
      by_cases hk : k = p.1
      · simp [dinsert, hk, alookup]
      · simp [dinsert, hk, alookup, ih]

theorem alookup_dinsert_ne {α : Type} {k k' : String} (v : α) (hne : k' ≠ k) :
    ∀ (l : List (String × α)), alookup k' (dinsert k v l) = alookup k' l := by
  intro l
  induction l with
  | nil => simp [dinsert, alookup, hne]
  | cons p rest ih =>
      by_cases hk : k = p.1
      · subst hk; simp [dinsert, alookup, hne]
      · by_cases hk' : k' = p.1
        · simp [dinsert, hk, alookup, hk']
        · simp [dinsert, hk, alookup, hk', ih]

/-! ## Exception taxonomy and database error dispatch (src/freddie/exceptions.py) -/

/-- The HTTP problem taxonomy of src/freddie/exceptions.py: each Problem
subclass fixes a status code and carries a detail payload. -/
inductive Problem where
  | badRequest (detail : Value) : Problem
  | unprocessable (detail : Value) : Problem
  | notFound (detail : Value) : Problem
  | serverError (detail : Value) : Problem
deriving Repr

/-- HTTP status code of each Problem subclass. -/
def Problem.statusCode : Problem → Nat
  | .badRequest _ => 400
  | .unprocessable _ => 422
  | .notFound _ => 404
  | .serverError _ => 500

def Problem.detail : Problem → Value
  | .badRequest d => d
  | .unprocessable d => d
  | .notFound d => d
  | .serverError d => d

/-- Kind of the underlying psycopg2 error attached to a peewee
DatabaseError (exc.orig). -/
inductive PgErrorKind where
  | uniqueViolation
  | foreignKeyViolation
  | otherPgError
deriving Repr, DecidableEq

/-- The underlying psycopg2 error: its class and its
diag.message_detail payload. -/
structure PgError where
  kind : PgErrorKind
  messageDetail : String
deriving Repr

/-- An exception reaching dispatch_db_error: a peewee IntegrityError
(subclass of DatabaseError) wrapping a psycopg2 error, another peewee
DatabaseError wrapping a psycopg2 error, or any other exception. -/
inductive DbExc where
  | integrityError (orig : PgError)
  | databaseError (orig : PgError)
  | otherExc
deriving Repr

/-- Translation of src/freddie/exceptions.py dispatch_db_error: an
IntegrityError whose orig is a UniqueViolation or ForeignKeyViolation
raises BadRequest(orig.diag.message_detail); everything else raises
ServerError('Database error'). -/
def dispatch_db_error : DbExc → Problem
  | .integrityError orig =>
      if orig.kind = .uniqueViolation ∨ orig.kind = .foreignKeyViolation then
        .badRequest (.pystr orig.messageDetail)
      else
        .serverError (.pystr "Database error")
  | .databaseError _ => .serverError (.pystr "Database error")
  | .otherExc => .serverError (.pystr "Database error")

/-- C8: every database error reaching the persistence-access boundary handler
is translated as follows: an IntegrityError whose underlying cause is a
unique or foreign-key constraint violation raises BadRequest (status 400)
carrying the constraint's human-readable detail message; every other database
error (an IntegrityError with a different cause, or any other DatabaseError)
raises ServerError (status 500) whose detail is the fixed string
"Database error", independent of the underlying error's content. -/
theorem dispatch_db_error_translation :
    (∀ orig : PgError,
        orig.kind = .uniqueViolation ∨ orig.kind = .foreignKeyViolation →
        dispatch_db_error (.integrityError orig)
          = .badRequest (.pystr orig.messageDetail)) ∧
    (∀ orig : PgError,
        ¬(orig.kind = .uniqueViolation ∨ orig.kind = .foreignKeyViolation) →
        dispatch_db_error (.integrityError orig)
          = .serverError (.pystr "Database error")) ∧
    (∀ orig : PgError,
        dispatch_db_error (.databaseError orig)
          = .serverError (.pystr "Database error")) ∧
    (∀ d : Value,
        (Problem.badRequest d).statusCode = 400
          ∧ (Problem.serverError d).statusCode = 500) := by
  refine ⟨?_, ?_, ?_, ?_⟩
  · intro orig h; simp [dispatch_db_error, h]
  · intro orig h; simp [dispatch_db_error, h]
  · intro orig; simp [dispatch_db_error]
  · intro d; exact ⟨rfl, rfl⟩

/-- Witness for C8: concrete evaluations — a unique violation carries its
detail message to a BadRequest, a non-integrity database error wrapping a
sensitive message is answered by the constant opaque ServerError. -/
theorem dispatch_db_error_translation_witness :
    dispatch_db_error (.integrityError ⟨.uniqueViolation, "duplicate key"⟩)
      = .badRequest (.pystr "duplicate key") ∧
    dispatch_db_error (.databaseError ⟨.otherPgError, "secret internals"⟩)
      = .serverError (.pystr "Database error") :=
  ⟨dispatch_db_error_translation.1 ⟨.uniqueViolation, "duplicate key"⟩ (Or.inl rfl),
   dispatch_db_error_translation.2.2.1 ⟨.otherPgError, "secret internals"⟩⟩

/-! ## Request-body serialization and the create / update actions
(src/freddie/viewsets/sql.py) -/

/-- Python str.endswith on embedded strings. -/
def strEndsWith (s suf : String) : Bool :=
  if suf.data.length ≤ s.data.length then
    (s.data.drop (s.data.length - suf.data.length)) == suf.data
  else false

/-- Python s[:-n] slicing: drop the last n characters. -/
def strDropRight (s : String) (n : Nat) : String :=
  ⟨s.data.take (s.data.length - n)⟩

/-- helpers.is_iterable: an Iterable that is not str/bytes/BaseModel.
On embedded values only lists and dicts qualify. -/
def is_iterable : Value → Bool
  | .pylist _ => true
  | .pydict _ => true
  | _ => false

/-- Python set(iterable) on an embedded value, represented as a duplicate-free
list (first occurrence kept).  Iterating a dict yields its keys. -/
def pySet : Value → List Value
  | .pylist xs =>
      xs.foldl (fun acc x => if acc.any (fun y => Value.beq y x) then acc else acc ++ [x]) []
  | .pydict kvs =>
      kvs.foldl
        (fun acc kv =>
          if acc.any (fun y => Value.beq y (.pystr kv.1)) then acc
          else acc ++ [Value.pystr kv.1])
        []
  | _ => []

/-- Translation of GenericModelViewSet.serialize_request_body_for_db
(src/freddie/viewsets/sql.py, lines 209-236), starting from the dict
produced by body.dict(exclude=read_only|{pk}, ...): keys naming direct model
fields go into the data dict; a key with the '_id' postfix whose base name
is a model field stores under the base name; a key with the '_ids' postfix
with an iterable value whose base name is a many-to-many field becomes a
relation assignment; anything else is dropped. -/
def serialize_request_body_for_db
    (serialized : List (String × Value))
    (modelFieldNames : List String) (manytomany : List String) :
    List (String × Value) × List (String × List Value) :=
  serialized.foldl
    (fun acc kv =>
      let key := kv.1
      let value := kv.2
      if key ∈ modelFieldNames then
        (dinsert key value acc.1, acc.2)
      else if strEndsWith key "_id" then
        let fname := strDropRight key 3
        if fname ∈ modelFieldNames then (dinsert fname value acc.1, acc.2)
        else acc
      else if strEndsWith key "_ids" ∧ is_iterable value then
        let fname := strDropRight key 4
        if fname ∈ manytomany then (acc.1, acc.2 ++ [(fname, pySet value)])
        else acc
      else acc)
    ([], [])

/-- A database write operation executed through the model manager. -/
inductive DbOp where
  | insertRow (data : List (String × Value))
  | updateRow (data : List (String × Value))
  | setRelated (field : String) (ids : List Value)
deriving Repr

/-- Translation of ModelCreateViewset.create (src/freddie/viewsets/sql.py,
lines 291-304) on the non-exceptional database path: serialize the body; an
empty direct-column data dict raises Unprocessable('Empty request body')
before any query; otherwise an INSERT runs (its result insertResult is the
new primary key; a falsy result raises ServerError), then each non-empty
relation assignment runs set_related.  The first component is the trace of
executed write operations. -/
def create (serialized : List (String × Value))
    (modelFieldNames manytomany : List String)
    (insertResult : Value) (componentTitle : String) :
    List DbOp × Except Problem Value :=
  let sr := serialize_request_body_for_db serialized modelFieldNames manytomany
  if sr.1.isEmpty then
    ([], .error (.unprocessable (.pystr "Empty request body")))
  else
    if pyFalsy insertResult then
      ([DbOp.insertRow sr.1],
        .error (.serverError (.pystr (componentTitle ++ " not created"))))
    else
      (DbOp.insertRow sr.1 ::
          (sr.2.filter (fun r => !r.2.isEmpty)).map
            (fun r => DbOp.setRelated r.1 r.2),
        .ok insertResult)

/-- Translation of ModelUpdateViewset.update (src/freddie/viewsets/sql.py,
lines 324-336) on the non-exceptional database path: serialize the body; an
UPDATE runs only when the direct-column data dict is non-empty (a falsy
execute result raises ServerError); every relation assignment (empty or not)
then runs set_related; the primary key is returned. -/
def update (pk : Value) (serialized : List (String × Value))
    (modelFieldNames manytomany : List String)
    (updateResult : Value) (componentTitle : String) :
    List DbOp × Except Problem Value :=
  let sr := serialize_request_body_for_db serialized modelFieldNames manytomany
  if sr.1.isEmpty then
    (sr.2.map (fun r => DbOp.setRelated r.1 r.2), .ok pk)
  else
    if pyFalsy updateResult then
      ([DbOp.updateRow sr.1],
        .error (.serverError (.pystr (componentTitle ++ " not updated"))))
    else
      (DbOp.updateRow sr.1 :: sr.2.map (fun r => DbOp.setRelated r.1 r.2),
        .ok pk)

/-- C9: a create request whose body serializes to an empty direct-column
data set raises Unprocessable (status 422) with an empty operation trace —
no insert or any other persistence write is attempted. -/
theorem create_empty_body_unprocessable
    (serialized : List (String × Value))
    (modelFieldNames manytomany : List String)
    (insertResult : Value) (componentTitle : String)
    (h : (serialize_request_body_for_db serialized modelFieldNames
            manytomany).1 = []) :
    create serialized modelFieldNames manytomany insertResult componentTitle
        = ([], .error (.unprocessable (.pystr "Empty request body")))
      ∧ (Problem.unprocessable (.pystr "Empty request body")).statusCode
          = 422 := by
  constructor
  · simp [create, h]
  · rfl

/-- Witness for C9: a body naming only the many-to-many relation field
tags_ids yields no direct column data, and create is refused with an
empty trace. -/
theorem create_empty_body_unprocessable_witness :
    (serialize_request_body_for_db [("tags_ids", .pylist [.pyint 1])]
        ["id", "title"] ["tags"]).1 = []
      ∧ create [("tags_ids", .pylist [.pyint 1])] ["id", "title"] ["tags"]
          (.pyint 7) "Post"
        = ([], .error (.unprocessable (.pystr "Empty request body"))) :=
  ⟨by rfl,
    (create_empty_body_unprocessable [("tags_ids", .pylist [.pyint 1])]
      ["id", "title"] ["tags"] (.pyint 7) "Post" (by rfl)).1⟩

/-- C10: an update request whose body serializes to no direct column data
executes no UPDATE against the primary table, still succeeds returning the
primary key, and still applies every relation assignment present in the
body. -/
theorem update_no_column_data_skips_update
    (pk : Value) (serialized : List (String × Value))
    (modelFieldNames manytomany : List String)
    (updateResult : Value) (componentTitle : String)
    (h : (serialize_request_body_for_db serialized modelFieldNames
            manytomany).1 = []) :
    update pk serialized modelFieldNames manytomany updateResult
        componentTitle
      = ((serialize_request_body_for_db serialized modelFieldNames
            manytomany).2.map (fun r => DbOp.setRelated r.1 r.2),
          .ok pk)
    ∧ ∀ op ∈ (update pk serialized modelFieldNames manytomany updateResult
          componentTitle).1, ∀ d, op ≠ DbOp.updateRow d := by
  have hupd :
      update pk serialized modelFieldNames manytomany updateResult
          componentTitle
        = ((serialize_request_body_for_db serialized modelFieldNames
              manytomany).2.map (fun r => DbOp.setRelated r.1 r.2),
            .ok pk) := by
    simp [update, h]
  refine ⟨hupd, ?_⟩
  intro op hop d
  rw [hupd] at hop
  simp only [List.mem_map] at hop
  obtain ⟨r, _, rfl⟩ := hop
  intro hcon
  exact DbOp.noConfusion hcon

/-- Witness for C10: a partial update naming only tags_ids runs no UPDATE,
returns the primary key 5, and applies the relation assignment. -/
theorem update_no_column_data_skips_update_witness :
    update (.pyint 5) [("tags_ids", .pylist [.pyint 4, .pyint 5])]
        ["id", "title"] ["tags"] (.pyint 1) "Post"
      = ([DbOp.setRelated "tags" [.pyint 4, .pyint 5]], .ok (.pyint 5)) := by
  have h := (update_no_column_data_skips_update (.pyint 5)
    [("tags_ids", .pylist [.pyint 4, .pyint 5])] ["id", "title"] ["tags"]
    (.pyint 1) "Post" (by rfl)).1
  rw [h]
  rfl

/-! ## Query shaping (GenericModelViewSet.construct_query,
src/freddie/viewsets/sql.py lines 134-177) -/

/-- A peewee model field as seen by the query shaper: a plain storage
column, or a foreign key carrying its related model. -/
inductive PDBField where
  | plain (name : String)
  | foreignKey (name : String) (relModel : String)
deriving DecidableEq, Repr

/-- An element of the Python set `selected` built by construct_query: a
DBField, a related Model class, the value None (added when a '_id'-postfixed
name has no base model field), or an aliased extra field. -/
inductive SelectedItem where
  | col (f : PDBField)
  | relModel (m : String)
  | pyNone
  | aliased (a : String) (f : PDBField)
deriving DecidableEq, Repr

/-- The `selected` and `joined` sets built by the loop of
GenericModelViewSet.construct_query before the fallback: the requested
field names (deduplicated by the dict comprehension) are resolved against
the model field map; a missing name with the '_id' postfix selects the base
foreign-key column (or None when the base is missing too); any other
missing name selects every declared property dependency, joining and
selecting the related model of each foreign-key dependency; a foreign-key
field joins and selects its related model; a plain column is selected;
finally each extra field is selected under its alias. -/
def construct_query_raw (modelFields : List (String × PDBField))
    (propsDeps : List (String × List PDBField))
    (fields : List String) (extra : List (String × PDBField)) :
    List SelectedItem × List String :=
  let dedupFields := fields.foldl (fun acc n => if n ∈ acc then acc else acc ++ [n]) []
  let step := fun (acc : List SelectedItem × List String) (field_name : String) =>
    match alookup field_name modelFields with
    | none =>
        if strEndsWith field_name "_id" then
          (sinsert
            (match alookup (strDropRight field_name 3) modelFields with
              | some f => SelectedItem.col f
              | none => SelectedItem.pyNone) acc.1, acc.2)
        else
          let deps := (alookup field_name propsDeps).getD []
          let selected1 := deps.foldl (fun s f => sinsert (SelectedItem.col f) s) acc.1
          let fks := deps.filter fun f =>
            match f with | .foreignKey _ _ => true | .plain _ => false
          fks.foldl
            (fun sj f =>
              match f with
              | .foreignKey _ r => (sinsert (SelectedItem.relModel r) sj.1, sinsert r sj.2)
              | .plain _ => sj)
            (selected1, acc.2)
    | some (.foreignKey _ r) =>
        (sinsert (SelectedItem.relModel r) acc.1, sinsert r acc.2)
    | some f => (sinsert (SelectedItem.col f) acc.1, acc.2)
  let res := dedupFields.foldl step ([], [])
  (extra.foldl (fun s p => sinsert (SelectedItem.aliased p.1 p.2) s) res.1, res.2)

/-- The column list finally passed to model.select:
`self.model.select(*(selected or (self.pk_field,)))` — the collected set,
or the primary key column alone when that set is empty. -/
def construct_query_select (modelFields : List (String × PDBField))
    (propsDeps : List (String × List PDBField)) (pk : PDBField)
    (fields : List String) (extra : List (String × PDBField)) :
    List SelectedItem :=
  let raw := (construct_query_raw modelFields propsDeps fields extra).1
  if raw.isEmpty then [SelectedItem.col pk] else raw

/-- Counterexample to C1 as stated: on a model with columns id (the
primary key) and title, the inclusion tree requesting only the field
title produces a query that does not select the primary key column. -/
theorem construct_query_pk_missing_counterexample :
    SelectedItem.col (.plain "id")
      ∉ construct_query_select
          [("id", .plain "id"), ("title", .plain "title")] [] (.plain "id")
          ["title"] [] := by decide

/-- C1 amended: the constructed query's selected set contains the bound
model's primary key column iff the loop resolved no selectable item at all
(the pk is then selected alone as a fallback) or the pk column itself was
resolved from a requested field — it is not unconditionally included. -/
theorem construct_query_pk_selected_iff
    (modelFields : List (String × PDBField))
    (propsDeps : List (String × List PDBField)) (pk : PDBField)
    (fields : List String) (extra : List (String × PDBField)) :
    SelectedItem.col pk
        ∈ construct_query_select modelFields propsDeps pk fields extra
      ↔ ((construct_query_raw modelFields propsDeps fields extra).1 = []
          ∨ SelectedItem.col pk
              ∈ (construct_query_raw modelFields propsDeps fields extra).1) := by
  unfold construct_query_select
  rcases h : (construct_query_raw modelFields propsDeps fields extra).1 with _ | ⟨x, xs⟩
  · simp
  · simp [List.isEmpty]

/-! ## Schema: field visibility, inclusion-tree configs and serialization
(src/freddie/schemas.py) -/

/-- A Schema class: its ordered field map (field name, optional sub-schema
type, declared default value) and its Config sets default_readable_fields,
read_only_fields, write_only_fields. -/
inductive Sch where
  | mk (fields : List (String × Option Sch × Value))
       (defaultReadable : List String)
       (readOnly : List String)
       (writeOnly : List String)

/-- cls.__fields__ as an ordered association list. -/
def Sch.fields : Sch → List (String × Option Sch × Value)
  | .mk f _ _ _ => f

/-- Config.default_readable_fields. -/
def Sch.cfgDefaultReadable : Sch → List String
  | .mk _ d _ _ => d

/-- Config.read_only_fields. -/
def Sch.cfgReadOnly : Sch → List String
  | .mk _ _ r _ => r

/-- Config.write_only_fields. -/
def Sch.cfgWriteOnly : Sch → List String
  | .mk _ _ _ w => w

/-- set(cls.__fields__.keys()). -/
def Sch.fieldNames (s : Sch) : List String := s.fields.map Prod.fst

/-- Schema.get_write_only_fields: configured write-only set intersected with
the actual fields. -/
def get_write_only_fields (s : Sch) : List String :=
  s.cfgWriteOnly.filter (fun n => n ∈ s.fieldNames)

/-- Schema.get_read_only_fields: configured read-only set intersected with
the actual fields. -/
def get_read_only_fields (s : Sch) : List String :=
  s.cfgReadOnly.filter (fun n => n ∈ s.fieldNames)

/-- Schema.get_readable_fields: all fields minus the write-only ones. -/
def get_readable_fields (s : Sch) : List String :=
  s.fieldNames.filter (fun n => n ∉ get_write_only_fields s)

/-- Schema.get_writable_fields: all fields minus the read-only ones. -/
def get_writable_fields (s : Sch) : List String :=
  s.fieldNames.filter (fun n => n ∉ get_read_only_fields s)

/-- Schema.get_default_readable_fields:
`config.default_readable_fields & fields or get_readable_fields()` — the
configured default-readable set intersected with the actual fields, or,
when that intersection is empty (Python falsy), the full readable set. -/
def get_default_readable_fields (s : Sch) : List String :=
  let inter := s.cfgDefaultReadable.filter (fun n => n ∈ s.fieldNames)
  if inter.isEmpty then get_readable_fields s else inter

/-- The config-building loop shared by
Schema.get_default_response_fields_config and
Schema.get_full_response_fields_config: for each field name, the value is
the sub-schema's own field set (given by sub) when the field's type is a
Schema, else the empty set.  (Every iterated name is an actual field, so
the none branch is unreachable.) -/
def response_config_step (s : Sch) (sub : Sch → List String)
    (config : List (String × List String)) (field_name : String) :
    List (String × List String) :=
  match alookup field_name s.fields with
  | none => config
  | some fd =>
      dinsert field_name
        (match fd.1 with
          | some nested => sub nested
          | none => []) config

def response_config_fold (s : Sch) (sub : Sch → List String)
    (names : List String) : List (String × List String) :=
  names.foldl (response_config_step s sub) []

/-- Schema.get_default_response_fields_config: one entry per
default-readable field; sub-schema fields carry the sub-schema's
default-readable set. -/
def get_default_response_fields_config (s : Sch) : List (String × List String) :=
  response_config_fold s get_default_readable_fields (get_default_readable_fields s)

/-- Schema.get_full_response_fields_config: one entry per readable field;
sub-schema fields carry the sub-schema's readable set. -/
def get_full_response_fields_config (s : Sch) : List (String × List String) :=
  response_config_fold s get_readable_fields (get_readable_fields s)

/-- Schema._getattr (src/freddie/schemas.py lines 162-180): key lookup for
map-like entities (missing key gives None), attribute lookup otherwise
(plain data has no schema attributes, giving None); the callable /
awaitable / async-iterable resolution steps are the identity on embedded
plain data; finally `return value or default` — the default replaces any
falsy value. -/
def schema_getattr (obj : Value) (name : String) (default : Value) : Value :=
  let value :=
    match obj with
    | .pydict kvs => (alookup name kvs).getD .pynone
    | _ => .pynone
  pyOr value default

/-- The dict comprehension of Schema.serialize lines 147-151:
`{subattr: set() for subattr in (subfields or []) if subattr in
subschema.get_readable_fields()}` — each explicitly requested subfield that
is readable on the sub-schema maps to an empty sub-selection. -/
def requested_subattrs (subschema : Sch) (subfields : List String) :
    List (String × List String) :=
  subfields.foldl
    (fun acc subattr =>
      if subattr ∈ get_readable_fields subschema then dinsert subattr [] acc
      else acc) []

/-- fastapi.encoders.jsonable_encoder at the end of Schema.serialize: the
embedded Value type is already JSON-primitive data (None/bool/int/str/
list/dict), on which the encoder acts as the identity. -/
def jsonable_encoder (v : Value) : Value := v

/-- Lines 124-129 of Schema.serialize: `if not fields:` replaces a missing
or empty (falsy) fields mapping with the default (or, under full, the full)
response fields config. -/
def effective_fields_config (s : Sch)
    (fields : Option (List (String × List String))) (full : Bool) :
    List (String × List String) :=
  match fields with
  | none =>
      if full then get_full_response_fields_config s
      else get_default_response_fields_config s
  | some f =>
      if f.isEmpty then
        (if full then get_full_response_fields_config s
          else get_default_response_fields_config s)
      else f

theorem sizeOf_subschema_lt {s : Sch} {name : String}
    {fd : Option Sch × Value} {t : Sch}
    (h : alookup name s.fields = some fd) (h2 : fd.1 = some t) :
    sizeOf t < sizeOf s := by
  have hmem := alookup_mem h
  have h1 : sizeOf (name, fd) < sizeOf s.fields := List.sizeOf_lt_of_mem hmem
  rcases s with ⟨f, dr, ro, wo⟩
  rcases fd with ⟨o, d⟩
  simp at h2
  subst h2
  simp [Sch.fields] at h1 ⊢
  omega

mutual

/-- Translation of Schema.serialize (src/freddie/schemas.py lines 115-157):
a list is serialized elementwise (async sequences are drained to lists
beforehand; embedded values are already drained); otherwise a missing or
empty fields mapping falls back to the default (or, with full, the full)
response fields config, the entity is projected through the field loop, and
the result passes through jsonable_encoder at the top call only. -/
def serialize (s : Sch) (obj : Value)
    (fields : Option (List (String × List String)))
    (jsonable : Bool) (full : Bool) : Value :=
  match obj with
  | .pylist xs =>
      .pylist (xs.attach.map fun x => serialize s x.1 fields jsonable full)
  | ob =>
      let cfg := effective_fields_config s fields full
      let serialized := serialize_fields_loop s ob cfg full
      if jsonable then jsonable_encoder (.pydict serialized)
      else .pydict serialized
termination_by (sizeOf s, sizeOf obj, 1, 0)
decreasing_by
  · apply Prod.Lex.right
    apply Prod.Lex.left
    have := List.sizeOf_lt_of_mem x.2
    simp <;> omega
  · apply Prod.Lex.right
    apply Prod.Lex.right
    apply Prod.Lex.left
    omega

/-- The per-field loop of Schema.serialize (lines 131-156): names outside
the readable set are skipped; the value is resolved by Schema._getattr with
the field's declared default; for a sub-schema field the sub-inclusion tree
is the sub-schema's default (or full) config overridden by the explicitly
requested subfields restricted to the sub-schema's readable set, and the
sub-schema serializes recursively with jsonable=False (and full left at its
default False). -/
def serialize_fields_loop (s : Sch) (obj : Value)
    (cfg : List (String × List String)) (full : Bool) :
    List (String × Value) :=
  match cfg with
  | [] => []
  | (field_name, subfields) :: rest =>
      let tail := serialize_fields_loop s obj rest full
      if field_name ∈ get_readable_fields s then
        match h : alookup field_name s.fields with
        | none => tail
        | some fd =>
            let field_value := schema_getattr obj field_name fd.2
            match h2 : fd.1 with
            | none => (field_name, field_value) :: tail
            | some subschema =>
                let subfields_config :=
                  if full then get_full_response_fields_config subschema
                  else get_default_response_fields_config subschema
                let subattrs :=
                  dmerge subfields_config (requested_subattrs subschema subfields)
                (field_name,
                  serialize subschema field_value (some subattrs) false false)
                  :: tail
      else tail
termination_by (sizeOf s, sizeOf obj, 0, sizeOf cfg)
decreasing_by
  · apply Prod.Lex.right
    apply Prod.Lex.right
    apply Prod.Lex.right
    simp <;> omega
  · apply Prod.Lex.left
    exact sizeOf_subschema_lt h h2

end

/-- The top-level keys of a serialized representation (the keys of a dict,
nothing for any other shape). -/
def topKeys : Value → List String
  | .pydict kvs => kvs.map Prod.fst
  | _ => []

/-- The top-level entries of a serialized representation. -/
def topPairs : Value → List (String × Value)
  | .pydict kvs => kvs
  | _ => []

theorem mem_keys_dinsert {α : Type} (k k' : String) (v : α) :
    ∀ (l : List (String × α)),
      k ∈ (dinsert k' v l).map Prod.fst ↔ k = k' ∨ k ∈ l.map Prod.fst := by
  intro l
  induction l with
  | nil => simp [dinsert]
  | cons p rest ih =>
      by_cases hk : k' = p.1
      · subst hk
        simp [dinsert] <;> tauto
      · simp [dinsert, hk, ih] <;> tauto

theorem mem_keys_dmerge {α : Type} (k : String) :
    ∀ (d2 d1 : List (String × α)),
      k ∈ (dmerge d1 d2).map Prod.fst
        ↔ k ∈ d1.map Prod.fst ∨ k ∈ d2.map Prod.fst := by
  intro d2
  induction d2 with
  | nil => intro d1; simp [dmerge]
  | cons p rest ih =>
      intro d1
      have hstep : dmerge d1 (p :: rest) = dmerge (dinsert p.1 p.2 d1) rest := by
        simp [dmerge]
      rw [hstep, ih, mem_keys_dinsert]
      simp
      tauto

theorem alookup_eq_some_of_mem_keys {α : Type} {k : String} :
    ∀ {l : List (String × α)}, k ∈ l.map Prod.fst → ∃ v, alookup k l = some v := by
  intro l
  induction l with
  | nil => intro h; simp at h
  | cons p rest ih =>
      intro h
      by_cases hk : k = p.1
      · exact ⟨p.2, by simp [alookup, hk]⟩
      · rw [List.map_cons, List.mem_cons] at h
        rcases h with h | h
        · exact absurd h hk
        · obtain ⟨v, hv⟩ := ih h
          exact ⟨v, by simp [alookup, hk, hv]⟩

theorem mem_names_of_readable {s : Sch} {k : String}
    (h : k ∈ get_readable_fields s) : k ∈ s.fieldNames := by
  simp [get_readable_fields] at h
  exact h.1

theorem not_readable_of_write_only {s : Sch} {k : String}
    (h : k ∈ get_write_only_fields s) : k ∉ get_readable_fields s := by
  intro hr
  simp [get_readable_fields] at hr
  exact hr.2 h

theorem mem_names_of_default_readable {s : Sch} {k : String}
    (h : k ∈ get_default_readable_fields s) : k ∈ s.fieldNames := by
  rw [get_default_readable_fields] at h
  by_cases he : (s.cfgDefaultReadable.filter (fun n => n ∈ s.fieldNames)).isEmpty
  · rw [if_pos he] at h
    exact mem_names_of_readable h
  · rw [if_neg he] at h
    simp at h
    exact h.2

theorem mem_keys_config_foldl (s : Sch) (sub : Sch → List String) :
    ∀ (names : List String) (init : List (String × List String)) (k : String),
      (∀ n ∈ names, n ∈ s.fieldNames) →
      (k ∈ (names.foldl (response_config_step s sub) init).map Prod.fst
        ↔ k ∈ init.map Prod.fst ∨ k ∈ names) := by
  intro names
  induction names with
  | nil => intro init k _; simp
  | cons n rest ih =>
      intro init k hnames
      have hn : n ∈ s.fieldNames := hnames n (by simp)
      obtain ⟨fd, hfd⟩ := alookup_eq_some_of_mem_keys (l := s.fields) hn
      have hstep : response_config_step s sub init n
          = dinsert n
              (match fd.1 with
                | some nested => sub nested
                | none => []) init := by
        simp [response_config_step, hfd]
      rw [List.foldl_cons, ih (response_config_step s sub init n) k
            (fun m hm => hnames m (by simp [hm])), hstep, mem_keys_dinsert]
      simp
      tauto

theorem mem_keys_response_config_fold (s : Sch) (sub : Sch → List String)
    (names : List String) (k : String)
    (hnames : ∀ n ∈ names, n ∈ s.fieldNames) :
    k ∈ (response_config_fold s sub names).map Prod.fst ↔ k ∈ names := by
  rw [response_config_fold, mem_keys_config_foldl s sub names [] k hnames]
  simp

theorem mem_keys_default_config (s : Sch) (k : String) :
    k ∈ (get_default_response_fields_config s).map Prod.fst
      ↔ k ∈ get_default_readable_fields s := by
  rw [get_default_response_fields_config,
    mem_keys_response_config_fold s _ _ k
      (fun n hn => mem_names_of_default_readable hn)]

theorem mem_keys_full_config (s : Sch) (k : String) :
    k ∈ (get_full_response_fields_config s).map Prod.fst
      ↔ k ∈ get_readable_fields s := by
  rw [get_full_response_fields_config,
    mem_keys_response_config_fold s _ _ k
      (fun n hn => mem_names_of_readable hn)]

theorem mem_keys_requested_subattrs (t : Sch) :
    ∀ (subfields : List String) (init : List (String × List String))
      (k : String),
      k ∈ (subfields.foldl
            (fun acc subattr =>
              if subattr ∈ get_readable_fields t then dinsert subattr [] acc
              else acc) init).map Prod.fst
        ↔ k ∈ init.map Prod.fst
            ∨ (k ∈ subfields ∧ k ∈ get_readable_fields t) := by
  intro subfields
  induction subfields with
  | nil => intro init k; simp
  | cons a rest ih =>
      intro init k
      rw [List.foldl_cons, ih]
      by_cases ha : a ∈ get_readable_fields t
      · rw [if_pos ha, mem_keys_dinsert]
        simp only [List.mem_cons]
        constructor
        · rintro ((rfl | h) | h)
          · exact Or.inr ⟨Or.inl rfl, ha⟩
          · exact Or.inl h
          · tauto
        · rintro (h | ⟨h1, h2⟩)
          · tauto
          · rcases h1 with rfl | h1 <;> tauto
      · rw [if_neg ha]
        simp only [List.mem_cons]
        constructor
        · rintro (h | ⟨h1, h2⟩) <;> tauto
        · rintro (h | ⟨h1, h2⟩)
          · tauto
          · rcases h1 with rfl | h1
            · exact absurd h2 ha
            · tauto

theorem mem_keys_serialize_fields_loop (s : Sch) (obj : Value) (full : Bool) :
    ∀ (cfg : List (String × List String)) (k : String),
      k ∈ (serialize_fields_loop s obj cfg full).map Prod.fst
        ↔ (k ∈ cfg.map Prod.fst ∧ k ∈ get_readable_fields s) := by
  intro cfg
  induction cfg with
  | nil => intro k; simp [serialize_fields_loop]
  | cons p rest ih =>
      intro k
      obtain ⟨field_name, subfields⟩ := p
      rw [serialize_fields_loop]
      by_cases hr : field_name ∈ get_readable_fields s
      · rw [if_pos hr]
        have hn : field_name ∈ s.fieldNames := mem_names_of_readable hr
        obtain ⟨fd, hfd⟩ := alookup_eq_some_of_mem_keys (l := s.fields) hn
        split
        · rename_i halk
          rw [halk] at hfd
          cases hfd
        · rename_i fd' halk
          split
          · simp only [List.map_cons, List.mem_cons, ih]
            constructor
            · rintro (rfl | ⟨h1, h2⟩)
              · exact ⟨Or.inl rfl, hr⟩
              · exact ⟨Or.inr h1, h2⟩
            · rintro ⟨(rfl | h1), h2⟩
              · exact Or.inl rfl
              · exact Or.inr ⟨h1, h2⟩
          · simp only [List.map_cons, List.mem_cons, ih]
            constructor
            · rintro (rfl | ⟨h1, h2⟩)
              · exact ⟨Or.inl rfl, hr⟩
              · exact ⟨Or.inr h1, h2⟩
            · rintro ⟨(rfl | h1), h2⟩
              · exact Or.inl rfl
              · exact Or.inr ⟨h1, h2⟩
      · rw [if_neg hr, ih]
        simp only [List.map_cons, List.mem_cons]
        constructor
        · rintro ⟨h1, h2⟩
          exact ⟨Or.inr h1, h2⟩
        · rintro ⟨(rfl | h1), h2⟩
          · exact absurd h2 hr
          · exact ⟨h1, h2⟩

theorem topKeys_eq_map_topPairs (v : Value) :
    topKeys v = (topPairs v).map Prod.fst := by
  cases v <;> rfl

theorem topPairs_serialize (s : Sch) (obj : Value)
    (fields : Option (List (String × List String))) (jsonable full : Bool)
    (hobj : ∀ xs, obj ≠ .pylist xs) :
    topPairs (serialize s obj fields jsonable full)
      = serialize_fields_loop s obj (effective_fields_config s fields full)
          full := by
  cases obj <;>
    first
    | exact absurd rfl (hobj _)
    | (rw [serialize] <;>
        first
        | (cases jsonable <;> simp [jsonable_encoder, topPairs])
        | (intro xs h; exact Value.noConfusion h))

theorem topKeys_serialize (s : Sch) (obj : Value)
    (fields : Option (List (String × List String))) (jsonable full : Bool)
    (hobj : ∀ xs, obj ≠ .pylist xs) :
    topKeys (serialize s obj fields jsonable full)
      = (serialize_fields_loop s obj (effective_fields_config s fields full)
          full).map Prod.fst := by
  rw [topKeys_eq_map_topPairs, topPairs_serialize s obj fields jsonable full hobj]

/-- C4: a field configured as write-only and materialized on the schema
never appears as a top-level key of the serialize output, for every entity
and every requested inclusion tree (including trees explicitly naming the
write-only field). -/
theorem serialize_write_only_hidden (s : Sch) (obj : Value)
    (fields : Option (List (String × List String))) (jsonable full : Bool)
    (wo : String) (hwo : wo ∈ get_write_only_fields s) :
    wo ∉ topKeys (serialize s obj fields jsonable full) := by
  intro hmem
  by_cases hobj : ∀ xs, obj ≠ Value.pylist xs
  · rw [topKeys_serialize s obj fields jsonable full hobj,
      mem_keys_serialize_fields_loop] at hmem
    exact not_readable_of_write_only hwo hmem.2
  · push_neg at hobj
    obtain ⟨xs, rfl⟩ := hobj
    rw [serialize] at hmem
    simp [topKeys] at hmem

/-- Witness for C4: a schema whose field pwd is write-only hides pwd even
when the request names it explicitly. -/
theorem serialize_write_only_hidden_witness :
    "pwd" ∉ topKeys (serialize
        (Sch.mk [("pwd", none, .pynone), ("id", none, .pynone)] [] [] ["pwd"])
        (.pydict [("pwd", .pystr "hunter2"), ("id", .pyint 1)])
        (some [("pwd", []), ("id", [])]) true false) :=
  serialize_write_only_hidden
    (Sch.mk [("pwd", none, .pynone), ("id", none, .pynone)] [] [] ["pwd"])
    (.pydict [("pwd", .pystr "hunter2"), ("id", .pyint 1)])
    (some [("pwd", []), ("id", [])]) true false "pwd" (by decide)

/-- C2 amended: serializing a (non-sequence) entity under the default
inclusion tree produces exactly the keys of
get_default_readable_fields() that are also readable — a field that is both
configured default-readable and write-only is dropped by the readable-set
filter, so the key set is the intersection, not get_default_readable_fields
itself. -/
theorem serialize_default_tree_keys (s : Sch) (obj : Value) (k : String)
    (hobj : ∀ xs, obj ≠ Value.pylist xs) :
    k ∈ topKeys (serialize s obj none true false)
      ↔ (k ∈ get_default_readable_fields s ∧ k ∈ get_readable_fields s) := by
  have heff : effective_fields_config s none false
      = get_default_response_fields_config s := rfl
  rw [topKeys_serialize s obj none true false hobj,
    mem_keys_serialize_fields_loop, heff, mem_keys_default_config]

/-- Witness for C2 (amended): on a schema with default-readable field id
and plain field meta, default serialization of a dict entity emits id. -/
theorem serialize_default_tree_keys_witness :
    "id" ∈ topKeys (serialize
        (Sch.mk [("id", none, .pynone), ("meta", none, .pynone)]
          ["id"] [] [])
        (.pydict [("id", .pyint 42)]) none true false) :=
  (serialize_default_tree_keys
      (Sch.mk [("id", none, .pynone), ("meta", none, .pynone)] ["id"] [] [])
      (.pydict [("id", .pyint 42)]) "id"
      (fun xs h => Value.noConfusion h)).mpr (by decide)

/-- Counterexample to C2 as stated: on a schema whose single field secret is
both configured default-readable and write-only, get_default_readable_fields
is the nonempty set containing secret, yet default serialization emits no
key at all — the output key set is not get_default_readable_fields. -/
theorem serialize_default_tree_keys_counterexample :
    "secret" ∈ get_default_readable_fields
        (Sch.mk [("secret", none, .pynone)] ["secret"] [] ["secret"])
      ∧ "secret" ∉ topKeys (serialize
          (Sch.mk [("secret", none, .pynone)] ["secret"] [] ["secret"])
          (.pydict [("secret", .pystr "x")]) none true false) := by
  constructor
  · decide
  · rw [topKeys_eq_map_topPairs,
      topPairs_serialize _ _ _ _ _ (fun xs h => Value.noConfusion h)]
    norm_num [serialize_fields_loop, effective_fields_config,
      get_default_response_fields_config, response_config_fold,
      response_config_step, get_default_readable_fields,
      get_readable_fields, get_write_only_fields, Sch.fieldNames, Sch.fields,
      Sch.cfgWriteOnly, Sch.cfgDefaultReadable, alookup, dinsert]

/-- C3 amended: Schema._getattr substitutes the declared default not only
for a missing value but whenever the retrieved value is falsy (None, False,
0, empty string, empty collection) — `return value or default`; only a
truthy present value is returned as-is. -/
theorem schema_getattr_falsy_default (kvs : List (String × Value))
    (name : String) (default v : Value)
    (h : alookup name kvs = some v) :
    schema_getattr (.pydict kvs) name default
      = if pyFalsy v then default else v := by
  simp [schema_getattr, h, pyOr]

/-- Witness for C3 (amended): a present falsy value 0 is replaced by the
default 5; a present truthy value 3 is kept. -/
theorem schema_getattr_falsy_default_witness :
    schema_getattr (.pydict [("count", .pyint 0)]) "count" (.pyint 5)
        = .pyint 5
      ∧ schema_getattr (.pydict [("n", .pyint 3)]) "n" (.pyint 9)
        = .pyint 3 := by
  constructor
  · rw [schema_getattr_falsy_default [("count", .pyint 0)] "count"
      (.pyint 5) (.pyint 0) rfl]
    rfl
  · rw [schema_getattr_falsy_default [("n", .pyint 3)] "n"
      (.pyint 9) (.pyint 3) rfl]
    rfl

/-- Counterexample to C3 as stated: the entity carries count = 0 (present,
falsy), the field's declared default is 5, and serialization emits 5, not
the present value 0. -/
theorem serialize_falsy_value_replaced_counterexample :
    alookup "count" [("count", Value.pyint 0)] = some (.pyint 0)
      ∧ serialize (Sch.mk [("count", none, .pyint 5)] [] [] [])
          (.pydict [("count", .pyint 0)]) none true false
        = .pydict [("count", .pyint 5)] := by
  constructor
  · rfl
  · rw [serialize] <;> try (intro xs h; exact Value.noConfusion h)
    norm_num [effective_fields_config, get_default_response_fields_config,
      response_config_fold, response_config_step, get_default_readable_fields,
      get_readable_fields, get_write_only_fields, Sch.fieldNames, Sch.fields,
      Sch.cfgWriteOnly, Sch.cfgDefaultReadable, alookup, dinsert,
      serialize_fields_loop, schema_getattr, pyOr, pyFalsy, jsonable_encoder]
    split
    · rename_i h
      simp [alookup, Sch.fields] at h
    · rename_i fd h
      rcases fd with ⟨fo, fdv⟩
      simp [alookup, Sch.fields] at h
      obtain ⟨h1, h2⟩ := h
      subst h1
      subst h2
      simp

/-- C6 amended: when a schema field f has sub-schema type t and the request
selects f with the explicit subfield x (readable on t, outside its
default-readable set), the serialized value for f carries exactly the keys
of t's default config that are readable on t, together with x — explicit
subfields are merged with the sub-schema defaults, and a default subfield
survives exactly when it is readable. -/
theorem serialize_subschema_requested_merges_defaults
    (s t : Sch) (f x : String) (obj dflt : Value)
    (hf : alookup f s.fields = some (some t, dflt))
    (hfr : f ∈ get_readable_fields s)
    (hx : x ∈ get_readable_fields t)
    (hxd : x ∉ get_default_readable_fields t)
    (hobj : ∀ xs, obj ≠ Value.pylist xs)
    (hval : ∀ xs, schema_getattr obj f dflt ≠ Value.pylist xs) :
    ∃ sv,
      alookup f (topPairs (serialize s obj (some [(f, [x])]) true false))
          = some sv
        ∧ ∀ k, k ∈ topKeys sv
            ↔ ((k ∈ get_default_readable_fields t ∧ k ∈ get_readable_fields t)
                ∨ k = x) := by
  have heff : effective_fields_config s (some [(f, [x])]) false = [(f, [x])] := rfl
  rw [topPairs_serialize s obj (some [(f, [x])]) true false hobj, heff]
  rw [serialize_fields_loop]
  rw [if_pos hfr]
  split
  · rename_i halk
    rw [halk] at hf
    cases hf
  · rename_i fd halk
    rw [halk] at hf
    injection hf with hf
    subst hf
    split
    · rename_i h2
      cases h2
    · rename_i subschema h2
      injection h2 with h2
      subst h2
      simp only [serialize_fields_loop, alookup, if_pos, eq_self_iff_true,
        if_true, Bool.false_eq_true, if_false]
      refine ⟨_, rfl, ?_⟩
      intro k
      have hxmem : x ∈ (dmerge (get_default_response_fields_config t)
          (requested_subattrs t [x])).map Prod.fst := by
        rw [mem_keys_dmerge]
        right
        rw [requested_subattrs, mem_keys_requested_subattrs]
        exact Or.inr ⟨by simp, hx⟩
      have hne : (dmerge (get_default_response_fields_config t)
          (requested_subattrs t [x])).isEmpty = false := by
        rcases hs : dmerge (get_default_response_fields_config t)
            (requested_subattrs t [x]) with _ | ⟨q, qs⟩
        · rw [hs] at hxmem
          simp at hxmem
        · rfl
      have heff2 : effective_fields_config t
          (some (dmerge (get_default_response_fields_config t)
            (requested_subattrs t [x]))) false
          = dmerge (get_default_response_fields_config t)
              (requested_subattrs t [x]) := by
        simp [effective_fields_config, hne]
      rw [topKeys_serialize t (schema_getattr obj f dflt) _ false false hval,
        heff2, mem_keys_serialize_fields_loop, mem_keys_dmerge,
        mem_keys_default_config, requested_subattrs,
        mem_keys_requested_subattrs]
      simp only [List.map_nil, List.mem_singleton, List.not_mem_nil,
        false_or]
      constructor
      · rintro ⟨hd | ⟨hk, hk2⟩, hr⟩
        · exact Or.inl ⟨hd, hr⟩
        · exact Or.inr hk
      · rintro (⟨hd, hr⟩ | rfl)
        · exact ⟨Or.inl hd, hr⟩
        · exact ⟨Or.inr ⟨rfl, hx⟩, hx⟩

/-- Witness for C6 (amended): schema field f of sub-schema type t (fields d
and x, defaults {d}); requesting f(x) yields an f-object containing both the
default subfield d and the requested x. -/
theorem serialize_subschema_requested_merges_defaults_witness :
    ∃ sv,
      alookup "f" (topPairs (serialize
          (Sch.mk [("f",
            some (Sch.mk [("d", none, .pynone), ("x", none, .pynone)]
              ["d"] [] []), .pynone)] [] [] [])
          (.pydict [("f", .pydict [("d", .pyint 1), ("x", .pyint 2)])])
          (some [("f", ["x"])]) true false)) = some sv
        ∧ "d" ∈ topKeys sv ∧ "x" ∈ topKeys sv := by
  obtain ⟨sv, h1, h2⟩ := serialize_subschema_requested_merges_defaults
    (Sch.mk [("f",
      some (Sch.mk [("d", none, .pynone), ("x", none, .pynone)] ["d"] [] []),
      .pynone)] [] [] [])
    (Sch.mk [("d", none, .pynone), ("x", none, .pynone)] ["d"] [] [])
    "f" "x"
    (.pydict [("f", .pydict [("d", .pyint 1), ("x", .pyint 2)])]) .pynone
    rfl (by decide) (by decide) (by decide)
    (fun xs h => Value.noConfusion h) (fun xs h => Value.noConfusion h)
  exact ⟨sv, h1, (h2 "d").mpr (Or.inl ⟨by decide, by decide⟩),
    (h2 "x").mpr (Or.inr rfl)⟩

/-- Counterexample to C6 as stated: in a sub-schema whose default field d is
also write-only, requesting f(x) yields an f-object containing only x — the
default field d is absent, so the output does not contain every sub-schema
default field. -/
theorem serialize_subschema_counterexample :
    "d" ∈ get_default_readable_fields
        (Sch.mk [("d", none, .pynone), ("x", none, .pynone)] ["d"] [] ["d"])
      ∧ "x" ∈ get_readable_fields
          (Sch.mk [("d", none, .pynone), ("x", none, .pynone)] ["d"] [] ["d"])
      ∧ "x" ∉ get_default_readable_fields
          (Sch.mk [("d", none, .pynone), ("x", none, .pynone)] ["d"] [] ["d"])
      ∧ topPairs (serialize
          (Sch.mk [("f",
            some (Sch.mk [("d", none, .pynone), ("x", none, .pynone)]
              ["d"] [] ["d"]), .pynone)] [] [] [])
          (.pydict []) (some [("f", ["x"])]) true false)
        = [("f", Value.pydict [("x", Value.pynone)])] := by
  refine ⟨by decide, by decide, by decide, ?_⟩
  rw [topPairs_serialize _ _ _ _ _ (fun xs h => Value.noConfusion h)]
  norm_num [serialize_fields_loop, serialize, effective_fields_config,
    get_default_response_fields_config, get_full_response_fields_config,
    response_config_fold, response_config_step, get_default_readable_fields,
    get_readable_fields, get_write_only_fields, requested_subattrs,
    Sch.fieldNames, Sch.fields, Sch.cfgWriteOnly, Sch.cfgDefaultReadable,
    alookup, dinsert, dmerge, schema_getattr, pyOr, pyFalsy,
    jsonable_encoder, topPairs]
  split
  · rename_i h
    simp [alookup, Sch.fields] at h
  · rename_i fd h
    rcases fd with ⟨fo, fdv⟩
    simp [alookup, Sch.fields] at h
    obtain ⟨h1, h2⟩ := h
    subst h1
    subst h2
    norm_num [serialize_fields_loop, serialize, effective_fields_config,
      get_default_response_fields_config, get_full_response_fields_config,
      response_config_fold, response_config_step, get_default_readable_fields,
      get_readable_fields, get_write_only_fields, requested_subattrs,
      Sch.fieldNames, Sch.fields, Sch.cfgWriteOnly, Sch.cfgDefaultReadable,
      alookup, dinsert, dmerge, schema_getattr, pyOr, pyFalsy,
      jsonable_encoder]
    simp only [show ¬("x" = "d") from by decide, if_false, List.foldl_cons,
      List.foldl_nil, dinsert, if_neg, ite_false]
    rw [serialize] <;> try (intro xs h; exact Value.noConfusion h)
    norm_num [serialize_fields_loop, effective_fields_config,
      get_readable_fields, get_write_only_fields, Sch.fieldNames, Sch.fields,
      Sch.cfgWriteOnly, jsonable_encoder,
      show ¬("d" = "x") from by decide, show ¬("x" = "d") from by decide]
    split
    · rename_i h
      simp [alookup, Sch.fields, show ¬("x" = "d") from by decide] at h
    · rename_i fd2 hh
      rcases fd2 with ⟨fo2, fdv2⟩
      simp [alookup, Sch.fields, show ¬("x" = "d") from by decide] at hh
      obtain ⟨hh1, hh2⟩ := hh
      subst hh1
      subst hh2
      norm_num [schema_getattr, pyOr, pyFalsy]

/-! ## Field-selector query validation (ResponseFieldsQuery,
src/freddie/viewsets/dependencies.py lines 54-61) -/

/-- The character class of the validation pattern r'[a-zA-Z(),-_]+'
(ResponseFieldsQuery.REGEX).  Note that inside the class the three
characters `,-_` form a code-point RANGE from ',' (U+002C) to '_' (U+005F),
which contains the digits and all punctuation between comma and underscore
(period, slash, colon, semicolon, angle brackets, question mark, at-sign,
square brackets, caret and more) besides comma, hyphen and underscore. -/
def response_fields_query_class (c : Char) : Bool :=
  (('a' ≤ c && c ≤ 'z') || ('A' ≤ c && c ≤ 'Z')
    || c = '(' || c = ')' || (',' ≤ c && c ≤ '_'))

/-- Length of the greedy match of the class repetition at position 0. -/
def class_run_length : List Char → Nat
  | [] => 0
  | c :: rest =>
      if response_fields_query_class c then 1 + class_run_length rest else 0

/-- Whether the query-string validator accepts the value: pydantic v1
applies Pattern.match (anchored at the start only), so the pattern
[a-zA-Z(),-_]+ matches iff the greedy class run at position 0 is
non-empty. -/
def response_fields_query_accepts (s : String) : Bool :=
  0 < class_run_length s.data

/-- The acceptance predicate asserted by the claim: only letters, digits,
underscore, comma, parentheses and hyphen, with balanced parentheses. -/
def claim_allowed_char (c : Char) : Bool :=
  (c.isAlpha || c.isDigit || c = '_' || c = ',' || c = '(' || c = ')'
    || c = '-')

/-- Balanced-parenthesis check over the claim's grammar alphabet. -/
def claim_balanced : List Char → Int → Bool
  | [], depth => depth == 0
  | c :: rest, depth =>
      if c = '(' then claim_balanced rest (depth + 1)
      else if c = ')' then decide (0 < depth) && claim_balanced rest (depth - 1)
      else claim_balanced rest depth

/-- The claim's acceptance predicate on a whole string. -/
def claim_accepts (s : String) : Bool :=
  s.data.all claim_allowed_char && claim_balanced s.data 0

/-- Counterexample to C5 as stated: the strings "@@" (at-signs fall inside
the `,-_` code-point range of the class) and "((" (unbalanced parentheses)
consist entirely of characters of the validation pattern's class — so the
validator accepts them under anchored-match and full-match semantics
alike — while the claim's predicate rejects both. -/
theorem response_fields_query_counterexample :
    response_fields_query_accepts "@@" = true
      ∧ ("@@".data.all response_fields_query_class) = true
      ∧ claim_accepts "@@" = false
      ∧ response_fields_query_accepts "((" = true
      ∧ ("((".data.all response_fields_query_class) = true
      ∧ claim_accepts "((" = false := by
  refine ⟨?_, ?_, ?_, ?_, ?_, ?_⟩ <;> decide

/-- C5 amended: the boundary validator accepts a field-selector string iff
it is non-empty and its first character lies in the class [a-zA-Z(),-_] of
the pattern, where `,-_` is the code-point range U+002C..U+005F (digits and
several punctuation characters included); characters after the first are
not constrained (pydantic v1 matches the pattern only at the start) and
parenthesis balance is never checked. -/
theorem response_fields_query_accepts_iff (s : String) :
    response_fields_query_accepts s = true
      ↔ ∃ c rest, s.data = c :: rest ∧ response_fields_query_class c = true := by
  rcases hs : s.data with _ | ⟨c, rest⟩
  · simp [response_fields_query_accepts, hs, class_run_length]
  · by_cases hc : response_fields_query_class c
    · simp [response_fields_query_accepts, hs, class_run_length, hc]
    · simp only [response_fields_query_accepts, hs, class_run_length,
        if_neg hc, decide_eq_true_eq]
      constructor
      · intro h
        omega
      · rintro ⟨c', rest', heq, hc'⟩
        injection heq with h1 h2
        subst h1
        simp [hc'] at hc

/-! ## Field-selection parser (ResponseFields.parse_query,
src/freddie/viewsets/dependencies.py lines 81-93) -/

/-- Python regex \\w on the parser's ASCII inputs: letters, digits,
underscore. -/
def isWordChar (c : Char) : Bool := c.isAlphanum || c = '_'

/-- A subfields-run character: \\w or comma (the class [\\w,]). -/
def isSubChar (c : Char) : Bool := isWordChar c || c = ','

/-- The greedy \\w+ run at the head of the string and the remainder. -/
def takeWordRun : List Char → List Char × List Char
  | [] => ([], [])
  | c :: rest =>
      if isWordChar c then
        ((c :: (takeWordRun rest).1), (takeWordRun rest).2)
      else ([], c :: rest)

/-- The greedy [\\w,]+ run at the head of the string and the remainder. -/
def takeSubRun : List Char → List Char × List Char
  | [] => ([], [])
  | c :: rest =>
      if isSubChar c then
        ((c :: (takeSubRun rest).1), (takeSubRun rest).2)
      else ([], c :: rest)

/-- A match of the group pattern (?P<field>\\w+)\\((?P<subfields>[\\w,]+)\\)
at position 0, returning the two captured runs and the remainder after the
closing parenthesis.  Greedy matching needs no backtracking here: a shorter
\\w+ prefix is followed by a word character, never by the literal '(' the
pattern requires next, and likewise a shorter [\\w,]+ prefix is never
followed by ')'. -/
def tryMatch (s : List Char) :
    Option ((List Char × List Char) × List Char) :=
  match takeWordRun s with
  | ([], _) => none
  | (c0 :: w1, r1) =>
      match r1 with
      | '(' :: r2 =>
          (match takeSubRun r2 with
            | ([], _) => none
            | (c1 :: s1, r3) =>
                match r3 with
                | ')' :: r4 => some ((c0 :: w1, c1 :: s1), r4)
                | _ => none)
      | _ => none

theorem takeWordRun_append :
    ∀ s : List Char, (takeWordRun s).1 ++ (takeWordRun s).2 = s := by
  intro s
  induction s with
  | nil => rfl
  | cons c rest ih =>
      by_cases hc : isWordChar c
      · simp [takeWordRun, hc, ih]
      · simp [takeWordRun, hc]

theorem takeSubRun_append :
    ∀ s : List Char, (takeSubRun s).1 ++ (takeSubRun s).2 = s := by
  intro s
  induction s with
  | nil => rfl
  | cons c rest ih =>
      by_cases hc : isSubChar c
      · simp [takeSubRun, hc, ih]
      · simp [takeSubRun, hc]

theorem tryMatch_shorter :
    ∀ {s : List Char} {m : List Char × List Char} {r : List Char},
      tryMatch s = some (m, r) → r.length < s.length := by
  intro s m r h
  unfold tryMatch at h
  split at h
  · cases h
  · rename_i c0 w1 r1 hw
    split at h
    · rename_i r2
      split at h
      · cases h
      · rename_i c1 s1 r3 hs
        split at h
        · rename_i r4
          simp at h
          obtain ⟨-, rfl⟩ := h
          have h1 := takeWordRun_append s
          have h2 := takeSubRun_append r2
          rw [hw] at h1
          rw [hs] at h2
          have e1 := congrArg List.length h1
          have e2 := congrArg List.length h2
          simp at e1 e2
          omega
        · cases h
    · cases h

/-- The re.sub scan of ResponseFields.parse_query: find each
non-overlapping match of the group pattern from the left, record its
captures, and delete it from the string (the callback returns ''); all
other characters are kept. -/
def scanSub (s : List Char) : List (List Char × List Char) × List Char :=
  match s with
  | [] => ([], [])
  | c :: rest =>
      match h : tryMatch (c :: rest) with
      | some (m, r4) => ((m :: (scanSub r4).1), (scanSub r4).2)
      | none => ((scanSub rest).1, c :: (scanSub rest).2)
termination_by s.length
decreasing_by
  · have := tryMatch_shorter h
    simpa using this
  · simp

/-- Python str.split(',') on a character list. -/
def splitCommas : List Char → List (List Char)
  | [] => [[]]
  | c :: rest =>
      match splitCommas rest with
      | [] => [[c]]
      | g :: gs => if c = ',' then [] :: g :: gs else (c :: g) :: gs

/-- Removal of trailing commas (the right half of str.strip(',')). -/
def dropTrailingCommas : List Char → List Char
  | [] => []
  | c :: rest =>
      if c = ',' ∧ (dropTrailingCommas rest).isEmpty then []
      else c :: dropTrailingCommas rest

/-- Python str.strip(','): commas removed from both ends. -/
def stripCommas (s : List Char) : List Char :=
  dropTrailingCommas (s.dropWhile (fun c => c = ','))

/-- Python set(list-of-strings) as a duplicate-free list, first occurrence
kept. -/
def strSetFold (xs : List String) : List String :=
  xs.foldl (fun acc x => sinsert x acc) []

/-- Translation of ResponseFields.parse_query: extract every
field(sub1,sub2,...) group recording {field: set(subfields.split(','))} in
match order, split the comma-stripped remainder on commas dropping empty
tokens to get {field: set()} entries, and merge with the parenthesized
entries winning on key collision ({**rest, **subfields}). -/
def parse_query (q : String) : List (String × List String) :=
  let sc := scanSub q.data
  let subfields := sc.1.foldl
    (fun d m =>
      dinsert (String.mk m.1)
        (strSetFold ((splitCommas m.2).map (fun g => String.mk g))) d) []
  let rest := ((splitCommas (stripCommas sc.2)).filter
      (fun g => ¬g.isEmpty)).foldl
    (fun d tok => dinsert (String.mk tok) [] d) []
  dmerge rest subfields

/-- Comma-interleaving of character-list pieces. -/
def interChars : List (List Char) → List Char
  | [] => []
  | [x] => x
  | x :: rest => x ++ ',' :: interChars rest

/-- Rendering one inclusion-tree entry back to the field-selector grammar:
a bare name for an empty subfield set, field(sub1,sub2,...) otherwise. -/
def renderTokenChars (p : String × List String) : List Char :=
  if p.2.isEmpty then p.1.data
  else p.1.data ++ '(' :: (interChars (p.2.map String.data) ++ [')'])

/-- Rendering an inclusion tree to the field-selector grammar: tokens
comma-joined. -/
def renderTree (t : List (String × List String)) : String :=
  String.mk (interChars (t.map renderTokenChars))

/-- A grammar-renderable inclusion tree: distinct keys, every field and
subfield name a non-empty word-character string, subfield sets
duplicate-free. -/
def wfTree (t : List (String × List String)) : Prop :=
  (t.map Prod.fst).Nodup
    ∧ ∀ p ∈ t, (¬p.1.data.isEmpty ∧ p.1.data.all isWordChar)
        ∧ p.2.Nodup
        ∧ ∀ sub ∈ p.2, ¬sub.data.isEmpty ∧ sub.data.all isWordChar

theorem takeWordRun_all (w r : List Char)
    (hw : ∀ c ∈ w, isWordChar c = true)
    (hr : r = [] ∨ ∃ c r', r = c :: r' ∧ isWordChar c = false) :
    takeWordRun (w ++ r) = (w, r) := by
  induction w with
  | nil =>
      rcases hr with rfl | ⟨c, r', rfl, hc⟩
      · rfl
      · simp [takeWordRun, hc]
  | cons c w' ih =>
      have hc : isWordChar c = true := hw c (by simp)
      have ih' := ih (fun x hx => hw x (by simp [hx]))
      simp [takeWordRun, hc, ih']

theorem takeSubRun_all (w r : List Char)
    (hw : ∀ c ∈ w, isSubChar c = true)
    (hr : r = [] ∨ ∃ c r', r = c :: r' ∧ isSubChar c = false) :
    takeSubRun (w ++ r) = (w, r) := by
  induction w with
  | nil =>
      rcases hr with rfl | ⟨c, r', rfl, hc⟩
      · rfl
      · simp [takeSubRun, hc]
  | cons c w' ih =>
      have hc : isSubChar c = true := hw c (by simp)
      have ih' := ih (fun x hx => hw x (by simp [hx]))
      simp [takeSubRun, hc, ih']

theorem tryMatch_none_word (w r : List Char)
    (hw : ∀ c ∈ w, isWordChar c = true)
    (hr : r = [] ∨ ∃ r', r = ',' :: r') :
    tryMatch (w ++ r) = none := by
  have ht : takeWordRun (w ++ r) = (w, r) :=
    takeWordRun_all w r hw (by
      rcases hr with rfl | ⟨r', rfl⟩
      · exact Or.inl rfl
      · exact Or.inr ⟨',', r', rfl, by decide⟩)
  unfold tryMatch
  rw [ht]
  rcases w with _ | ⟨c0, w1⟩
  · rfl
  · rcases hr with rfl | ⟨r', rfl⟩
    · rfl
    · rfl

theorem scanSub_nil : scanSub [] = ([], []) := by
  rw [scanSub]

theorem scanSub_comma (r : List Char) :
    scanSub (',' :: r) = ((scanSub r).1, ',' :: (scanSub r).2) := by
  have hm : tryMatch (',' :: r) = none :=
    tryMatch_none_word [] (',' :: r) (by simp) (Or.inr ⟨r, rfl⟩)
  rw [scanSub]
  split
  · rename_i m r4 hmm
    rw [hm] at hmm
    cases hmm
  · rfl

theorem scanSub_word (w r : List Char)
    (hw : ∀ c ∈ w, isWordChar c = true)
    (hr : r = [] ∨ ∃ r', r = ',' :: r') :
    scanSub (w ++ r) = ((scanSub r).1, w ++ (scanSub r).2) := by
  induction w with
  | nil => simp
  | cons c w' ih =>
      have hm : tryMatch (c :: (w' ++ r)) = none := by
        have := tryMatch_none_word (c :: w') r hw hr
        simpa using this
      rw [List.cons_append, scanSub]
      split
      · rename_i m r4 hmm
        rw [hm] at hmm
        cases hmm
      · have ih' := ih (fun x hx => hw x (by simp [hx]))
        rw [ih']
        simp

theorem scanSub_group (name subs r : List Char)
    (hn0 : name ≠ []) (hn : ∀ c ∈ name, isWordChar c = true)
    (hs0 : subs ≠ []) (hs : ∀ c ∈ subs, isSubChar c = true)
    (hr : r = [] ∨ ∃ r', r = ',' :: r') :
    scanSub (name ++ '(' :: (subs ++ ')' :: r))
      = ((name, subs) :: (scanSub r).1, (scanSub r).2) := by
  have htw : takeWordRun (name ++ '(' :: (subs ++ ')' :: r))
      = (name, '(' :: (subs ++ ')' :: r)) :=
    takeWordRun_all _ _ hn (Or.inr ⟨'(', _, rfl, by decide⟩)
  have hts : takeSubRun (subs ++ ')' :: r) = (subs, ')' :: r) :=
    takeSubRun_all _ _ hs (Or.inr ⟨')', r, rfl, by decide⟩)
  have hm : tryMatch (name ++ '(' :: (subs ++ ')' :: r))
      = some ((name, subs), r) := by
    unfold tryMatch
    rw [htw]
    rcases name with _ | ⟨c0, w1⟩
    · exact absurd rfl hn0
    · split
      · rename_i heq
        simp at heq
      · rename_i pr ch tl rest heqp
        injection heqp with ha hb
        subst hb
        rw [← ha]
        split
        · rename_i r2 hx1 hx2
          injection hx2 with hx2a hx2b
          subst hx2b
          rw [hts]
          rcases subs with _ | ⟨d0, d1⟩
          · exact absurd rfl hs0
          · rfl
        · rename_i hne
          exact absurd rfl (hne (subs ++ ')' :: r))
  rcases hname : name with _ | ⟨c0, n1⟩
  · exact absurd hname hn0
  · rw [hname] at hm
    rw [List.cons_append, scanSub]
    split
    · rename_i m r4 hmm
      rw [List.cons_append] at hm
      rw [hm] at hmm
      injection hmm with hmm
      injection hmm with hml hmr
      subst hml
      subst hmr
      rfl
    · rename_i hnone
      rw [List.cons_append] at hm
      rw [hm] at hnone
      cases hnone

/-- The pieces of the rendered string that the scan keeps: the name of each
bare token, an empty piece for each parenthesized token. -/
def keepPieces (t : List (String × List String)) : List (List Char) :=
  t.map (fun p => if p.2.isEmpty then p.1.data else [])

/-- The captures the scan extracts: one (name, subfields-run) pair per
parenthesized token, in order. -/
def parenPairs (t : List (String × List String)) :
    List (List Char × List Char) :=
  t.filterMap
    (fun p =>
      if p.2.isEmpty then none
      else some (p.1.data, interChars (p.2.map String.data)))

theorem interChars_all_sub (subs : List String)
    (h : ∀ sub ∈ subs, sub.data.all isWordChar) :
    ∀ c ∈ interChars (subs.map String.data), isSubChar c = true := by
  induction subs with
  | nil => intro c hc; simp [interChars] at hc
  | cons x rest ih =>
      intro c hc
      rcases rest with _ | ⟨y, ys⟩
      · simp [interChars] at hc
        have hx := h x (by simp)
        simp [List.all_eq_true] at hx
        simp [isSubChar, hx c hc]
      · simp only [List.map_cons, interChars, List.mem_append,
          List.mem_cons] at hc
        rcases hc with hc | hc | hc
        · have := h x (by simp)
          simp [List.all_eq_true] at this
          simp [isSubChar, this c hc]
        · subst hc
          decide
        · exact ih (fun s hs => h s (by simp [hs])) c
            (by simpa [List.map_cons] using hc)

theorem interChars_head_ne_nil (x : List Char) (rest : List (List Char))
    (hx : x ≠ []) : interChars (x :: rest) ≠ [] := by
  rcases rest with _ | ⟨y, ys⟩
  · simpa [interChars] using hx
  · intro hcon
    simp [interChars] at hcon

theorem interChars_map_ne_nil (subs : List String) (h0 : subs ≠ [])
    (h : ∀ sub ∈ subs, ¬sub.data.isEmpty) :
    interChars (subs.map String.data) ≠ [] := by
  rcases subs with _ | ⟨s0, ss⟩
  · exact absurd rfl h0
  · simp only [List.map_cons]
    apply interChars_head_ne_nil
    have := h s0 (by simp)
    simpa using this

theorem scanSub_renderTree (t : List (String × List String))
    (hwf : ∀ p ∈ t, (¬p.1.data.isEmpty ∧ p.1.data.all isWordChar)
        ∧ ∀ sub ∈ p.2, ¬sub.data.isEmpty ∧ sub.data.all isWordChar) :
    scanSub (interChars (t.map renderTokenChars))
      = (parenPairs t, interChars (keepPieces t)) := by
  induction t with
  | nil => simp [interChars, parenPairs, keepPieces, scanSub_nil]
  | cons p T ih =>
      have hp := hwf p (by simp)
      have hpname : ∀ c ∈ p.1.data, isWordChar c = true := by
        have := hp.1.2
        simp [List.all_eq_true] at this
        exact this
      rcases hT : T with _ | ⟨q, T'⟩
      · -- single token
        by_cases hp2 : p.2.isEmpty
        · have hp2' : p.2 = [] := by
            cases hxx : p.2 with
            | nil => rfl
            | cons a b => rw [hxx] at hp2; simp at hp2
          have htok : renderTokenChars p = p.1.data := by
            simp [renderTokenChars, hp2]
          simp only [List.map_cons, List.map_nil, interChars, htok]
          have hw := scanSub_word p.1.data [] hpname (Or.inl rfl)
          simp only [List.append_nil] at hw
          rw [hw, scanSub_nil]
          simp [parenPairs, keepPieces, hp2', interChars]
        · have hp2' : p.2 ≠ [] := by
            intro hh
            rw [hh] at hp2
            simp at hp2
          have htok : renderTokenChars p
              = p.1.data ++ '(' ::
                  ((interChars (p.2.map String.data)) ++ ')' :: []) := by
            simp [renderTokenChars, hp2]
          simp only [List.map_cons, List.map_nil, interChars, htok]
          have hsub_all : ∀ c ∈ interChars (p.2.map String.data),
              isSubChar c = true :=
            interChars_all_sub p.2 (fun sub hs => (hp.2 sub hs).2)
          have hsub_ne : interChars (p.2.map String.data) ≠ [] :=
            interChars_map_ne_nil p.2 hp2' (fun sub hs => (hp.2 sub hs).1)
          rw [scanSub_group p.1.data (interChars (p.2.map String.data)) []
            (by simpa using hp.1.1) hpname hsub_ne hsub_all (Or.inl rfl),
            scanSub_nil]
          simp [parenPairs, keepPieces, hp2, hp2']
      · -- at least two tokens
        have ihT := ih (fun x hx => hwf x (List.mem_cons_of_mem p hx))
        rw [← hT]
        have hinter : interChars ((p :: T).map renderTokenChars)
            = renderTokenChars p
                ++ ',' :: interChars (T.map renderTokenChars) := by
          rw [hT]
          simp [interChars]
        rw [hinter]
        by_cases hp2 : p.2.isEmpty
        · have hp2' : p.2 = [] := by
            cases hxx : p.2 with
            | nil => rfl
            | cons a b => rw [hxx] at hp2; simp at hp2
          have htok : renderTokenChars p = p.1.data := by
            simp [renderTokenChars, hp2]
          rw [htok, scanSub_word p.1.data _ hpname
            (Or.inr ⟨interChars (T.map renderTokenChars), rfl⟩),
            scanSub_comma, ihT]
          have hpp : parenPairs (p :: T) = parenPairs T := by
            simp [parenPairs, hp2, hp2']
          have hkp : interChars (keepPieces (p :: T))
              = p.1.data ++ ',' :: interChars (keepPieces T) := by
            rw [hT]
            simp [keepPieces, hp2', interChars]
          rw [hpp, hkp]
        · have hp2' : p.2 ≠ [] := by
            intro hh
            rw [hh] at hp2
            simp at hp2
          have htok : renderTokenChars p
              = p.1.data ++ '(' ::
                  ((interChars (p.2.map String.data)) ++ ')' :: []) := by
            simp [renderTokenChars, hp2]
          rw [htok]
          have hassoc :
              (p.1.data ++ '(' ::
                  ((interChars (p.2.map String.data)) ++ ')' :: []))
                ++ ',' :: interChars (T.map renderTokenChars)
              = p.1.data ++ '(' ::
                  ((interChars (p.2.map String.data))
                    ++ ')' :: (',' :: interChars (T.map renderTokenChars))) := by
            simp
          rw [hassoc]
          have hsub_all : ∀ c ∈ interChars (p.2.map String.data),
              isSubChar c = true :=
            interChars_all_sub p.2 (fun sub hs => (hp.2 sub hs).2)
          have hsub_ne : interChars (p.2.map String.data) ≠ [] :=
            interChars_map_ne_nil p.2 hp2' (fun sub hs => (hp.2 sub hs).1)
          rw [scanSub_group p.1.data (interChars (p.2.map String.data)) _
            (by simpa using hp.1.1) hpname hsub_ne hsub_all
            (Or.inr ⟨interChars (T.map renderTokenChars), rfl⟩),
            scanSub_comma, ihT]
          have hpp : parenPairs (p :: T)
              = (p.1.data, interChars (p.2.map String.data)) :: parenPairs T := by
            simp [parenPairs, hp2']
          have hkp : interChars (keepPieces (p :: T))
              = ',' :: interChars (keepPieces T) := by
            rw [hT]
            simp [keepPieces, hp2', interChars]
          rw [hpp, hkp]

theorem splitCommas_ne_nil : ∀ s : List Char, splitCommas s ≠ [] := by
  intro s
  cases s with
  | nil => simp [splitCommas]
  | cons c rest =>
      rw [splitCommas]
      rcases h : splitCommas rest with _ | ⟨g, gs⟩
      · simp
      · by_cases hc : c = ',' <;> simp [hc]

theorem splitCommas_comma_cons (rest : List Char) :
    splitCommas (',' :: rest) = [] :: splitCommas rest := by
  rw [splitCommas]
  rcases h : splitCommas rest with _ | ⟨g, gs⟩
  · exact absurd h (splitCommas_ne_nil rest)
  · simp

theorem splitCommas_cons_of (c : Char) (rest g : List Char)
    (gs : List (List Char)) (hc : ¬c = ',')
    (h : splitCommas rest = g :: gs) :
    splitCommas (c :: rest) = (c :: g) :: gs := by
  rw [splitCommas, h]
  simp [hc]

theorem splitCommas_no_comma (x : List Char) (hx : ',' ∉ x) :
    splitCommas x = [x] := by
  induction x with
  | nil => rfl
  | cons c x' ih =>
      have hc : ¬c = ',' := fun h => hx (by simp [h])
      have ih' := ih (fun h => hx (by simp [h]))
      rw [splitCommas_cons_of c x' x' [] hc ih']

theorem splitCommas_append_comma (x r : List Char) (hx : ',' ∉ x) :
    splitCommas (x ++ ',' :: r) = x :: splitCommas r := by
  induction x with
  | nil =>
      simp only [List.nil_append]
      exact splitCommas_comma_cons r
  | cons c x' ih =>
      have hc : ¬c = ',' := fun h => hx (by simp [h])
      have ih' := ih (fun h => hx (by simp [h]))
      rw [List.cons_append, splitCommas_cons_of c _ x' (splitCommas r) hc ih']

theorem splitCommas_interChars (pieces : List (List Char))
    (h : ∀ p ∈ pieces, ',' ∉ p) (h0 : pieces ≠ []) :
    splitCommas (interChars pieces) = pieces := by
  induction pieces with
  | nil => exact absurd rfl h0
  | cons x rest ih =>
      rcases rest with _ | ⟨y, ys⟩
      · simp only [interChars]
        exact splitCommas_no_comma x (h x (by simp))
      · simp only [interChars]
        rw [splitCommas_append_comma x _ (h x (by simp))]
        rw [ih (fun p hp => h p (by simp [hp])) (by simp)]

theorem filter_splitCommas_dropLeading (s : List Char) :
    ((splitCommas (s.dropWhile (fun c => c = ','))).filter
        (fun g => ¬g.isEmpty))
      = ((splitCommas s).filter (fun g => ¬g.isEmpty)) := by
  induction s with
  | nil => rfl
  | cons c rest ih =>
      by_cases hc : c = ','
      · subst hc
        have hdw : List.dropWhile (fun c => decide (c = ',')) (',' :: rest)
            = List.dropWhile (fun c => decide (c = ',')) rest := by
          simp [List.dropWhile_cons]
        rw [hdw, ih, splitCommas_comma_cons]
        simp
      · have hdw : List.dropWhile (fun c => decide (c = ',')) (c :: rest)
            = c :: rest := by
          simp [List.dropWhile_cons, hc]
        rw [hdw]

theorem filter_cons_empty (L : List (List Char)) :
    (([] : List Char) :: L).filter (fun g => ¬g.isEmpty)
      = L.filter (fun g => ¬g.isEmpty) := by
  simp

theorem splitCommas_dropTrailing :
    ∀ s : List Char,
      (splitCommas (dropTrailingCommas s)).head?
          = (splitCommas s).head?
        ∧ ((splitCommas (dropTrailingCommas s)).filter
              (fun g => ¬g.isEmpty))
            = ((splitCommas s).filter (fun g => ¬g.isEmpty)) := by
  intro s
  induction s with
  | nil => exact ⟨rfl, rfl⟩
  | cons c rest ih =>
      rw [dropTrailingCommas]
      by_cases hce : c = ',' ∧ (dropTrailingCommas rest).isEmpty
      · rw [if_pos hce]
        obtain ⟨hc, he⟩ := hce
        subst hc
        have hr : dropTrailingCommas rest = [] := by
          rcases hrr : dropTrailingCommas rest with _ | _
          · rfl
          · rw [hrr] at he
            simp at he
        have h1 := ih.1
        have h2 := ih.2
        rw [hr] at h1 h2
        rw [splitCommas_comma_cons]
        constructor
        · simp [splitCommas]
        · rw [show splitCommas [] = [[]] from rfl, filter_cons_empty _,
            filter_cons_empty _]
          have h2' := h2
          rw [show splitCommas [] = [[]] from rfl, filter_cons_empty _] at h2'
          exact h2'
      · rw [if_neg hce]
        by_cases hc : c = ','
        · subst hc
          have hne : dropTrailingCommas rest ≠ [] := by
            intro h
            exact hce ⟨rfl, by simp [h]⟩
          rw [splitCommas_comma_cons, splitCommas_comma_cons]
          refine ⟨rfl, ?_⟩
          rw [filter_cons_empty _, filter_cons_empty _]
          exact ih.2
        · rcases h1 : splitCommas (dropTrailingCommas rest)
              with _ | ⟨g, gs⟩
          · exact absurd h1 (splitCommas_ne_nil _)
          · rcases h2 : splitCommas rest with _ | ⟨g', gs'⟩
            · exact absurd h2 (splitCommas_ne_nil rest)
            · have hh := ih.1
              have hf := ih.2
              rw [h1, h2] at hh hf
              simp only [List.head?] at hh
              have hgg : g = g' := by
                injection hh
              subst hgg
              rw [splitCommas_cons_of c _ g gs hc h1,
                splitCommas_cons_of c _ g gs' hc h2]
              constructor
              · rfl
              · simp only [List.filter_cons] at hf ⊢
                by_cases hg : g.isEmpty
                · simp only [hg] at hf ⊢
                  simpa using hf
                · simp [hg] at hf ⊢
                  exact hf

theorem dinsert_not_mem {α : Type} (k : String) (v : α) :
    ∀ d : List (String × α), k ∉ d.map Prod.fst →
      dinsert k v d = d ++ [(k, v)] := by
  intro d
  induction d with
  | nil => intro _; rfl
  | cons p rest ih =>
      intro h
      simp only [List.map_cons, List.mem_cons] at h
      push_neg at h
      rw [dinsert, if_neg h.1, ih h.2]
      rfl

theorem foldl_dinsert_map {α β : Type} (f : α → String) (g : α → β) :
    ∀ (l : List α) (acc : List (String × β)),
      (l.map f).Nodup → (∀ m ∈ l, f m ∉ acc.map Prod.fst) →
      l.foldl (fun d m => dinsert (f m) (g m) d) acc
        = acc ++ l.map (fun m => (f m, g m)) := by
  intro l
  induction l with
  | nil => intro acc _ _; simp
  | cons m l' ih =>
      intro acc hnd hacc
      rw [List.foldl_cons, dinsert_not_mem (f m) (g m) acc
        (hacc m (by simp))]
      have hnd' : (l'.map f).Nodup := by
        simp only [List.map_cons, List.nodup_cons] at hnd
        exact hnd.2
      have hfm : f m ∉ l'.map f := by
        simp only [List.map_cons, List.nodup_cons] at hnd
        exact hnd.1
      rw [ih (acc ++ [(f m, g m)]) hnd'
        (fun m' hm' => by
          rw [List.map_append, List.mem_append]
          push_neg
          refine ⟨hacc m' (List.mem_cons_of_mem m hm'), ?_⟩
          simp only [List.map_cons, List.map_nil, List.mem_singleton]
          intro hcon
          exact hfm (hcon ▸ List.mem_map_of_mem f hm'))]
      simp

theorem foldl_sinsert {α : Type} [DecidableEq α] :
    ∀ (l acc : List α), l.Nodup → (∀ x ∈ l, x ∉ acc) →
      l.foldl (fun a x => sinsert x a) acc = acc ++ l := by
  intro l
  induction l with
  | nil => intro acc _ _; simp
  | cons x l' ih =>
      intro acc hnd hacc
      rw [List.foldl_cons]
      have hx : sinsert x acc = acc ++ [x] := by
        rw [sinsert, if_neg (hacc x (by simp))]
      rw [hx, ih (acc ++ [x]) (by simp at hnd; exact hnd.2)
        (fun y hy => by
          simp only [List.mem_append, List.mem_singleton]
          push_neg
          refine ⟨hacc y (by simp [hy]), ?_⟩
          intro hcon
          simp at hnd
          exact hnd.1 (hcon ▸ hy))]
      simp

theorem strSetFold_of_nodup (xs : List String) (h : xs.Nodup) :
    strSetFold xs = xs := by
  have := foldl_sinsert xs [] h (by simp)
  simpa [strSetFold] using this

theorem alookup_append_of_not_mem {α : Type} (k : String) :
    ∀ (A B : List (String × α)), k ∉ A.map Prod.fst →
      alookup k (A ++ B) = alookup k B := by
  intro A
  induction A with
  | nil => intro B _; rfl
  | cons p rest ih =>
      intro B h
      simp only [List.map_cons, List.mem_cons] at h
      push_neg at h
      rw [List.cons_append, alookup, if_neg h.1]
      exact ih B h.2

theorem alookup_append_of_mem {α : Type} (k : String) :
    ∀ (A B : List (String × α)), k ∈ A.map Prod.fst →
      alookup k (A ++ B) = alookup k A := by
  intro A
  induction A with
  | nil => intro B h; simp at h
  | cons p rest ih =>
      intro B h
      by_cases hk : k = p.1
      · rw [List.cons_append, alookup, if_pos hk, alookup, if_pos hk]
      · simp only [List.map_cons, List.mem_cons] at h
        rcases h with h | h
        · exact absurd h hk
        · rw [List.cons_append, alookup, if_neg hk, alookup, if_neg hk]
          exact ih B h

theorem mem_keys_of_mem_keys_filter {α : Type} (f : String × α → Bool)
    (k : String) :
    ∀ t : List (String × α),
      k ∈ (t.filter f).map Prod.fst → k ∈ t.map Prod.fst := by
  intro t
  induction t with
  | nil => intro h; simp at h
  | cons p rest ih =>
      intro h
      rw [List.filter_cons] at h
      by_cases hf : f p
      · rw [if_pos hf] at h
        simp only [List.map_cons, List.mem_cons] at h ⊢
        rcases h with h | h
        · exact Or.inl h
        · exact Or.inr (ih h)
      · rw [if_neg (by simpa using hf)] at h
        simp only [List.map_cons, List.mem_cons]
        exact Or.inr (ih h)

theorem alookup_partition {α : Type} (f : String × α → Bool) :
    ∀ t : List (String × α), (t.map Prod.fst).Nodup →
      ∀ k, alookup k (t.filter f ++ t.filter (fun p => !f p))
        = alookup k t := by
  intro t
  induction t with
  | nil => intro _ k; rfl
  | cons p rest ih =>
      intro hnd k
      have hp1 : p.1 ∉ rest.map Prod.fst := by
        simp only [List.map_cons, List.nodup_cons] at hnd
        exact hnd.1
      have hnd' : (rest.map Prod.fst).Nodup := by
        simp only [List.map_cons, List.nodup_cons] at hnd
        exact hnd.2
      by_cases hf : f p
      · rw [List.filter_cons, if_pos hf, List.filter_cons,
          if_neg (by simp [hf])]
        rw [List.cons_append, alookup, alookup]
        by_cases hk : k = p.1
        · rw [if_pos hk, if_pos hk]
        · rw [if_neg hk, if_neg hk]
          exact ih hnd' k
      · rw [List.filter_cons, if_neg (by simpa using hf), List.filter_cons,
          if_pos (by simp [hf])]
        by_cases hk : k = p.1
        · have hnotA : k ∉ (rest.filter f).map Prod.fst := by
            intro hcon
            exact hp1 (hk ▸ mem_keys_of_mem_keys_filter f k rest hcon)
          rw [alookup_append_of_not_mem k _ _ hnotA, alookup, if_pos hk,
            alookup, if_pos hk]
        · by_cases hmem : k ∈ (rest.filter f).map Prod.fst
          · rw [alookup_append_of_mem k _ _ hmem, alookup, if_neg hk,
              ← ih hnd' k,
              alookup_append_of_mem k _ _ hmem]
          · rw [alookup_append_of_not_mem k _ _ hmem, alookup, if_neg hk,
              alookup, if_neg hk, ← ih hnd' k,
              alookup_append_of_not_mem k _ _ hmem]

theorem string_mk_data (x : String) : String.mk x.data = x := rfl

theorem parenPairs_entries (t : List (String × List String))
    (hwf : ∀ p ∈ t, p.2.Nodup
        ∧ ∀ sub ∈ p.2, ¬sub.data.isEmpty ∧ sub.data.all isWordChar) :
    (parenPairs t).map
        (fun m => (String.mk m.1,
          strSetFold ((splitCommas m.2).map (fun g => String.mk g))))
      = t.filter (fun p => !p.2.isEmpty) := by
  induction t with
  | nil => rfl
  | cons p rest ih =>
      have hp := hwf p (by simp)
      have ih' := ih (fun q hq => hwf q (List.mem_cons_of_mem p hq))
      by_cases hp2 : p.2 = []
      · have h1 : parenPairs (p :: rest) = parenPairs rest := by
          simp [parenPairs, hp2]
        rw [h1, ih', List.filter_cons, if_neg (by simp [hp2])]
      · have h1 : parenPairs (p :: rest)
            = (p.1.data, interChars (p.2.map String.data))
                :: parenPairs rest := by
          simp [parenPairs, hp2]
        rw [h1, List.map_cons, ih', List.filter_cons,
          if_pos (by simp [hp2])]
        have hcf : ∀ piece ∈ p.2.map String.data, ',' ∉ piece := by
          intro piece hpiece
          simp only [List.mem_map] at hpiece
          obtain ⟨sub, hsub, rfl⟩ := hpiece
          intro hcomma
          have hword := (hp.2 sub hsub).2
          simp only [List.all_eq_true] at hword
          have := hword ',' hcomma
          simp [isWordChar] at this
        have hne : p.2.map String.data ≠ [] := by
          simpa using hp2
        have hsc : splitCommas (interChars (p.2.map String.data))
            = p.2.map String.data :=
          splitCommas_interChars _ hcf hne
        have hhead : (String.mk p.1.data,
            strSetFold ((splitCommas (interChars (p.2.map String.data))).map
              (fun g => String.mk g))) = p := by
          rw [hsc, List.map_map]
          rw [show ((fun g => String.mk g) ∘ String.data) = id from
            funext fun x => rfl]
          rw [List.map_id, strSetFold_of_nodup p.2 hp.1]
        rw [hhead]

theorem keepPieces_filter (t : List (String × List String))
    (hname : ∀ p ∈ t, ¬p.1.data.isEmpty) :
    (keepPieces t).filter (fun g => ¬g.isEmpty)
      = (t.filter (fun p => p.2.isEmpty)).map (fun p => p.1.data) := by
  induction t with
  | nil => rfl
  | cons p rest ih =>
      have ih' := ih (fun q hq => hname q (List.mem_cons_of_mem p hq))
      by_cases hp2 : p.2 = []
      · have h1 : keepPieces (p :: rest) = p.1.data :: keepPieces rest := by
          simp [keepPieces, hp2]
        rw [h1, List.filter_cons, if_pos (by simpa using hname p (by simp)),
          ih', List.filter_cons, if_pos (by simp [hp2])]
        rfl
      · have h1 : keepPieces (p :: rest) = [] :: keepPieces rest := by
          simp [keepPieces, hp2]
        rw [h1, List.filter_cons, if_neg (by simp), ih',
          List.filter_cons, if_neg (by simp [hp2])]

theorem tokens_of_keep (t : List (String × List String))
    (hname : ∀ p ∈ t, ¬p.1.data.isEmpty ∧ p.1.data.all isWordChar) :
    ((splitCommas (stripCommas (interChars (keepPieces t)))).filter
        (fun g => ¬g.isEmpty))
      = (t.filter (fun p => p.2.isEmpty)).map (fun p => p.1.data) := by
  rw [stripCommas, (splitCommas_dropTrailing _).2,
    filter_splitCommas_dropLeading]
  rcases ht : t with _ | ⟨p, rest⟩
  · rfl
  · rw [← ht]
    have hcf : ∀ piece ∈ keepPieces t, ',' ∉ piece := by
      intro piece hpiece
      simp only [keepPieces, List.mem_map] at hpiece
      obtain ⟨q, hq, rfl⟩ := hpiece
      by_cases hq2 : q.2.isEmpty
      · rw [if_pos hq2]
        intro hcomma
        have hword := (hname q hq).2
        simp only [List.all_eq_true] at hword
        have := hword ',' hcomma
        simp [isWordChar] at this
      · rw [if_neg hq2]
        simp
    have hne : keepPieces t ≠ [] := by
      rw [ht]
      simp [keepPieces]
    rw [splitCommas_interChars (keepPieces t) hcf hne]
    exact keepPieces_filter t (fun q hq => (hname q hq).1)

theorem map_keys_nil_filter (t : List (String × List String)) :
    (t.filter (fun p => p.2.isEmpty)).map
        (fun p => (p.1, ([] : List String)))
      = t.filter (fun p => p.2.isEmpty) := by
  induction t with
  | nil => rfl
  | cons p rest ih =>
      rw [List.filter_cons]
      by_cases hp2 : p.2.isEmpty
      · rw [if_pos (by simpa using hp2), List.map_cons, ih]
        have hp2' : p.2 = [] := by
          rcases hx : p.2 with _ | _
          · rfl
          · rw [hx] at hp2; simp at hp2
        rw [show (p.1, ([] : List String)) = p from by rw [← hp2']]
      · rw [if_neg (by simpa using hp2)]
        exact ih

theorem nodup_keys_filter_disjoint {α : Type} (f : String × α → Bool) :
    ∀ (t : List (String × α)), (t.map Prod.fst).Nodup →
      ∀ k, k ∈ (t.filter f).map Prod.fst →
        k ∈ (t.filter (fun p => !f p)).map Prod.fst → False := by
  intro t
  induction t with
  | nil => intro _ k h _; simp at h
  | cons p rest ih =>
      intro hnd k h1 h2
      have hp1 : p.1 ∉ rest.map Prod.fst := by
        simp only [List.map_cons, List.nodup_cons] at hnd
        exact hnd.1
      have hnd' : (rest.map Prod.fst).Nodup := by
        simp only [List.map_cons, List.nodup_cons] at hnd
        exact hnd.2
      by_cases hf : f p
      · rw [List.filter_cons, if_pos hf] at h1
        rw [List.filter_cons, if_neg (by simp [hf])] at h2
        simp only [List.map_cons, List.mem_cons] at h1
        rcases h1 with rfl | h1
        · exact hp1 (mem_keys_of_mem_keys_filter _ _ rest h2)
        · exact ih hnd' k h1 h2
      · rw [List.filter_cons, if_neg (by simpa using hf)] at h1
        rw [List.filter_cons, if_pos (by simp [hf])] at h2
        simp only [List.map_cons, List.mem_cons] at h2
        rcases h2 with rfl | h2
        · exact hp1 (mem_keys_of_mem_keys_filter _ _ rest h1)
        · exact ih hnd' k h1 h2

/-- C7: for every well-formed inclusion tree, rendering it to the
field-selector grammar (bare names for empty subfield sets,
field(sub1,sub2) otherwise, comma-joined) and parsing the result with
ResponseFields.parse_query yields a tree equal to the original:
every key looks up to the same subfield set. -/
theorem parse_query_renderTree_roundtrip (t : List (String × List String))
    (hwf : wfTree t) :
    ∀ k, alookup k (parse_query (renderTree t)) = alookup k t := by
  obtain ⟨hnd, hall⟩ := hwf
  intro k
  have hscan : scanSub (renderTree t).data
      = (parenPairs t, interChars (keepPieces t)) :=
    scanSub_renderTree t (fun p hp => ⟨(hall p hp).1, (hall p hp).2.2⟩)
  have hent := parenPairs_entries t
    (fun p hp => ⟨(hall p hp).2.1, (hall p hp).2.2⟩)
  have htok := tokens_of_keep t (fun p hp => (hall p hp).1)
  have hkeys_par : (parenPairs t).map
      (fun m : List Char × List Char => String.mk m.1)
      = (t.filter (fun p => !p.2.isEmpty)).map Prod.fst := by
    have hc := congrArg (List.map Prod.fst) hent
    simpa [List.map_map, Function.comp] using hc
  have hnodup_par : ((parenPairs t).map
      (fun m : List Char × List Char => String.mk m.1)).Nodup := by
    rw [hkeys_par]
    exact List.Nodup.sublist
      (List.Sublist.map Prod.fst (List.filter_sublist t)) hnd
  have hfold_sub : (parenPairs t).foldl
      (fun d m => dinsert (String.mk m.1)
        (strSetFold ((splitCommas m.2).map (fun g => String.mk g))) d) []
      = t.filter (fun p => !p.2.isEmpty) := by
    have h := foldl_dinsert_map
      (fun m : List Char × List Char => String.mk m.1)
      (fun m : List Char × List Char =>
        strSetFold ((splitCommas m.2).map (fun g => String.mk g)))
      (parenPairs t) [] hnodup_par (by intro m hm; simp)
    exact h.trans (by simpa using hent)
  have hkeys_rest :
      (((splitCommas (stripCommas (interChars (keepPieces t)))).filter
        (fun g => ¬g.isEmpty)).map
          (fun tok : List Char => String.mk tok))
      = (t.filter (fun p => p.2.isEmpty)).map Prod.fst := by
    rw [htok, List.map_map]
    rw [show ((fun tok : List Char => String.mk tok)
        ∘ (fun p : String × List String => p.1.data))
      = (Prod.fst : String × List String → String) from
        funext fun p => rfl]
  have hnodup_rest :
      ((((splitCommas (stripCommas (interChars (keepPieces t)))).filter
        (fun g => ¬g.isEmpty))).map
          (fun tok : List Char => String.mk tok)).Nodup := by
    rw [hkeys_rest]
    exact List.Nodup.sublist
      (List.Sublist.map Prod.fst (List.filter_sublist t)) hnd
  have hfold_rest :
      ((splitCommas (stripCommas (interChars (keepPieces t)))).filter
        (fun g => ¬g.isEmpty)).foldl
          (fun d tok => dinsert (String.mk tok) [] d) []
      = t.filter (fun p => p.2.isEmpty) := by
    have h := foldl_dinsert_map
      (fun tok : List Char => String.mk tok)
      (fun tok : List Char => ([] : List String))
      ((splitCommas (stripCommas (interChars (keepPieces t)))).filter
        (fun g => ¬g.isEmpty)) [] hnodup_rest (by intro m hm; simp)
    have h2 : ((splitCommas (stripCommas (interChars (keepPieces t)))).filter
        (fun g => ¬g.isEmpty)).map
          (fun m : List Char => (String.mk m, ([] : List String)))
        = t.filter (fun p => p.2.isEmpty) := by
      rw [htok, List.map_map]
      rw [show ((fun m : List Char => (String.mk m, ([] : List String)))
          ∘ (fun p : String × List String => p.1.data))
        = (fun p : String × List String => (p.1, ([] : List String))) from
          funext fun p => rfl]
      exact map_keys_nil_filter t
    exact h.trans (by rw [List.nil_append]; exact h2)
  have hdisj : ∀ m ∈ t.filter (fun p => !p.2.isEmpty),
      Prod.fst m ∉ (t.filter (fun p => p.2.isEmpty)).map Prod.fst := by
    intro m hm hcon
    exact nodup_keys_filter_disjoint (fun p => p.2.isEmpty) t hnd m.1
      hcon (List.mem_map_of_mem Prod.fst hm)
  have hpq : parse_query (renderTree t)
      = t.filter (fun p => p.2.isEmpty)
        ++ t.filter (fun p => !p.2.isEmpty) := by
    simp only [parse_query]
    have hsc1 : (scanSub (renderTree t).data).1 = parenPairs t := by
      rw [hscan]
    have hsc2 : (scanSub (renderTree t).data).2
        = interChars (keepPieces t) := by
      rw [hscan]
    rw [hsc1, hsc2, hfold_sub, hfold_rest, dmerge]
    have h3 := foldl_dinsert_map
      (Prod.fst : String × List String → String)
      (Prod.snd : String × List String → List String)
      (t.filter (fun p => !p.2.isEmpty))
      (t.filter (fun p => p.2.isEmpty))
      (List.Nodup.sublist
        (List.Sublist.map Prod.fst (List.filter_sublist t)) hnd)
      hdisj
    rw [h3]
    rw [show (fun m : String × List String => (m.1, m.2))
      = (id : String × List String → String × List String) from
        funext fun m => rfl, List.map_id]
  rw [hpq]
  exact alookup_partition (fun p => p.2.isEmpty) t hnd k

theorem parse_query_renderTree_roundtrip_witness :
    wfTree [("a", []), ("b", ["x", "y"]), ("c", [])]
    ∧ alookup "b" (parse_query (renderTree
        [("a", []), ("b", ["x", "y"]), ("c", [])])) = some ["x", "y"]
    ∧ alookup "a" (parse_query (renderTree
        [("a", []), ("b", ["x", "y"]), ("c", [])])) = some []
    ∧ alookup "q" (parse_query (renderTree
        [("a", []), ("b", ["x", "y"]), ("c", [])])) = none := by
  refine ⟨by unfold wfTree; decide, ?_, ?_, ?_⟩
  · exact (parse_query_renderTree_roundtrip
      [("a", []), ("b", ["x", "y"]), ("c", [])] (by unfold wfTree; decide) "b").trans
      (by decide)
  · exact (parse_query_renderTree_roundtrip
      [("a", []), ("b", ["x", "y"]), ("c", [])] (by unfold wfTree; decide) "a").trans
      (by decide)
  · exact (parse_query_renderTree_roundtrip
      [("a", []), ("b", ["x", "y"]), ("c", [])] (by unfold wfTree; decide) "q").trans
      (by decide)

end Freddie
